import Mathlib

/-!
Verification of the `testutil` equality engine and case dispatcher
(package `testutil`, files `equal.go`, `cases.go`, `func.go`, `test.go`).

The Go code compares arbitrary runtime values with a numeric tolerance.
We shallowly embed the value domain and the comparison functions.

Modelling conventions:

* Go `float64` values are modelled by `F`: an exact-rational idealisation
  of IEEE doubles that keeps the special values (`NaN`, `±Inf`) and the
  sign bit (so `+0.0` and `-0.0` are distinguished), but uses exact `ℚ`
  arithmetic for finite magnitudes.  Overflow/underflow of finite
  products is not modelled (products of finite values stay finite and
  exact).
* `reflect.Value` payloads are modelled by the inductive `V0`
  (function values are treated separately, see `V1` further below,
  because a function body cannot occur inside a Lean inductive).
  The invalid `reflect.Value` (a `nil` interface) is `V0.invalid`.
* Go maps are association lists `List (V0 × V0)`; `MapKeys` returns the
  keys in list order (Go's iteration order is arbitrary; all ordering
  claims are stated relative to this list order, matching the spec's
  "index into expected's key list").
* The recursive comparison `equal` carries an explicit fuel parameter so
  that it is a computable structural recursion; `equal_irrel` proves that
  any two fuels above `sizeOf x` give the same result, so every theorem
  stated for a sufficiently large fuel is fuel-independent.
* Go panics are modelled by `Option`: the function-aware comparison
  `equalTop` and the per-case loops return `none` exactly where the Go
  code would panic (calling a nil function, or calling a function with
  arguments of the wrong types).
* The randomness of `equalFunc` (a `rand.Rand` seeded with the current
  time) is made explicit as a generator argument `gen : Gen`; the
  tolerance coercion `validateTolerance` is modelled over real-valued
  floats `FR` because the complex modulus is an exact square root.
-/

/-- Idealised Go `float64`: NaN and infinity carry their sign bit, finite
values carry a sign bit and a non-negative rational magnitude.  The value
of `fin s m` is `-m` if `s` and `m` otherwise. -/
inductive F where
  | nan (sign : Bool)
  | inf (sign : Bool)
  | fin (sign : Bool) (mag : ℚ)
deriving DecidableEq, Repr

namespace F

/-- `math.IsNaN`. -/
def isNaN : F → Bool
  | nan _ => true
  | _ => false

/-- `math.IsInf(y, 0)`. -/
def isInf : F → Bool
  | inf _ => true
  | _ => false

/-- `math.Signbit`: the raw sign bit of the representation. -/
def signbit : F → Bool
  | nan s => s
  | inf s => s
  | fin s _ => s

/-- The rational value of a finite float (`0` for the special values). -/
def val : F → ℚ
  | fin s m => if s then -m else m
  | _ => 0

/-- Whether a finite float is (positive or negative) zero, i.e. Go `y == 0`. -/
def isZero (x : F) : Bool :=
  match x with
  | fin _ _ => x.val = 0
  | _ => false

/-- Go `==` on float64: NaN is unequal to everything, infinities compare by
sign, finite values compare by value (so `+0.0 == -0.0` is `true`). -/
def goEq (x y : F) : Bool :=
  match x, y with
  | nan _, _ => false
  | _, nan _ => false
  | inf s, inf t => s = t
  | inf _, fin _ _ => false
  | fin _ _, inf _ => false
  | fin _ _, fin _ _ => x.val = y.val

/-- Go float64 subtraction `x - y` in the idealised model.  A zero result
is `+0` except for `(-0) - (+0)`, following IEEE round-to-nearest. -/
def sub (x y : F) : F :=
  match x, y with
  | nan _, _ => nan false
  | _, nan _ => nan false
  | inf s, inf t => if s = t then nan false else inf s
  | inf s, fin _ _ => inf s
  | fin _ _, inf t => inf (!t)
  | fin _ _, fin _ _ =>
    let d := x.val - y.val
    if d = 0 then fin (x.signbit && !y.signbit) 0 else fin (d < 0) |d|

/-- Go float64 division (used only for the reported relative error). -/
def div (x y : F) : F :=
  match x, y with
  | nan _, _ => nan false
  | _, nan _ => nan false
  | inf s, inf _ => nan s
  | inf s, fin t _ => inf (xor s t)
  | fin s _, inf t => fin (xor s t) 0
  | fin _ _, fin _ _ =>
    if y.val = 0 then
      if x.val = 0 then nan false else inf (xor x.signbit y.signbit)
    else fin (x.val / y.val < 0) |x.val / y.val|

/-- `math.Abs`: clears the sign bit. -/
def goAbs : F → F
  | nan _ => nan false
  | inf _ => inf false
  | fin _ m => fin false |m|

/-- Go float64 `<`: false whenever a NaN is involved. -/
def goLt (x y : F) : Bool :=
  match x, y with
  | nan _, _ => false
  | _, nan _ => false
  | inf s, inf t => s && !t
  | inf s, fin _ _ => s
  | fin _ _, inf t => !t
  | fin _ _, fin _ _ => x.val < y.val

/-- Go float64 `<=`: false whenever a NaN is involved. -/
def goLe (x y : F) : Bool :=
  match x, y with
  | nan _, _ => false
  | _, nan _ => false
  | inf s, inf t => s || !t
  | inf s, fin _ _ => s
  | fin _ _, inf t => !t
  | fin _ _, fin _ _ => x.val ≤ y.val

/-- Embed an exact rational as a finite float (used for the tolerance and
for products such as `y * tol`, which are exact in the idealised model). -/
def ofQ (q : ℚ) : F := fin (q < 0) |q|

/-- Go conversion of an integer to float64 (exact in the model). -/
def ofInt (n : ℤ) : F := fin (n < 0) |(n : ℚ)|

end F

/-- Go `reflect.Kind` (the kinds the model distinguishes). -/
inductive Kind where
  | invalid | bool | int | float | complex | str | slice | array | map | struct | ptr | func
deriving DecidableEq

/-- Model of a Go `reflect.Value` without function values.

`mapV` carries the key/value pairs in `MapKeys` order; `structV` carries
(field name, field value) pairs in declaration order; `ptrV none` is a nil
pointer and `ptrV (some (a, t))` a non-nil pointer with address `a` and
target `t` (Go compares pointers by address before anything else).
`invalid` is the invalid `reflect.Value` (from a `nil` interface, or from
a missed `MapIndex`). -/
inductive V0 where
  | invalid
  | boolV (b : Bool)
  | intV (n : ℤ)
  | floatV (f : F)
  | complexV (re im : F)
  | strV (s : String)
  | sliceV (elems : List V0)
  | arrV (elems : List V0)
  | mapV (pairs : List (V0 × V0))
  | structV (fields : List (String × V0))
  | ptrV (target : Option (ℕ × V0))

/-- Any list has positive auto-generated size. -/
theorem one_le_sizeOf_list {α : Type _} [SizeOf α] (l : List α) : 1 ≤ sizeOf l := by
  cases l
  · simp
  · simp
    omega

namespace V0

/-- `reflect.Value.IsValid`. -/
def isValid : V0 → Bool
  | invalid => false
  | _ => true

/-- `Type().Kind()`. -/
def kindOf : V0 → Kind
  | invalid => .invalid
  | boolV _ => .bool
  | intV _ => .int
  | floatV _ => .float
  | complexV _ _ => .complex
  | strV _ => .str
  | sliceV _ => .slice
  | arrV _ => .array
  | mapV _ => .map
  | structV _ => .struct
  | ptrV _ => .ptr

/-- `reflect.Zero(xv.Type())`: the zero value of `x`'s type.  A zero slice
or map is nil (empty in the model); a zero array/struct zeroes each
element/field; a zero pointer is nil. -/
def zeroOf : V0 → V0
  | invalid => invalid
  | boolV _ => boolV false
  | intV _ => intV 0
  | floatV _ => floatV (.fin false 0)
  | complexV _ _ => complexV (.fin false 0) (.fin false 0)
  | strV _ => strV ("")
  | sliceV _ => sliceV []
  | arrV l => arrV (l.attach.map fun e => zeroOf e.1)
  | mapV _ => mapV []
  | structV fs => structV (fs.attach.map fun p => (p.1.1, zeroOf p.1.2))
  | ptrV _ => ptrV none
termination_by v => sizeOf v
decreasing_by
  · obtain ⟨e, he⟩ := e
    have h1 := List.sizeOf_lt_of_mem he
    simp at *
    omega
  · obtain ⟨⟨n, v⟩, hp⟩ := p
    have h1 := List.sizeOf_lt_of_mem hp
    simp at *
    omega

end V0

/-- Go map key equality (the `==` used by map indexing).  Floats use IEEE
`==` (NaN keys never match, `+0`/`-0` match); composite comparable keys
compare componentwise.  Pointer keys compare by address (`nil` equals
`nil`); slices/maps are not valid Go map keys and the remaining mixed
cases never arise between keys of a single map. -/
def keyEq : V0 → V0 → Bool
  | .invalid, .invalid => true
  | .boolV a, .boolV b => a = b
  | .intV a, .intV b => a = b
  | .floatV a, .floatV b => F.goEq a b
  | .complexV a b, .complexV c d => F.goEq a c && F.goEq b d
  | .strV a, .strV b => a = b
  | .arrV a, .arrV b =>
    a.length = b.length && (a.zip b).attach.all fun p => keyEq p.1.1 p.1.2
  | .structV a, .structV b =>
    a.length = b.length &&
      (a.zip b).attach.all fun p => p.1.1.1 = p.1.2.1 && keyEq p.1.1.2 p.1.2.2
  | .ptrV none, .ptrV none => true
  | .ptrV (some p), .ptrV (some q) => p.1 = q.1
  | _, _ => false
termination_by x y => sizeOf x + sizeOf y
decreasing_by
  · obtain ⟨⟨u, v⟩, hp⟩ := p
    obtain ⟨h1, h2⟩ := List.of_mem_zip hp
    have h3 := List.sizeOf_lt_of_mem h1
    have h4 := List.sizeOf_lt_of_mem h2
    simp at *
    omega
  · obtain ⟨⟨⟨n1, u⟩, n2, v⟩, hp⟩ := p
    obtain ⟨h1, h2⟩ := List.of_mem_zip hp
    have h3 := List.sizeOf_lt_of_mem h1
    have h4 := List.sizeOf_lt_of_mem h2
    simp at *
    omega

/-- `xv.MapIndex(k)` on the pair list: the value of the first pair whose
key is Go-equal to `k`, or the invalid value when the lookup misses
(which is what `reflect` returns for a missing key). -/
def mapIndexD (ps : List (V0 × V0)) (k : V0) : V0 :=
  match ps.find? (fun p => keyEq p.1 k) with
  | some p => p.2
  | none => .invalid

/-- A map lookup yields the invalid value or a value of the map. -/
theorem sizeOf_mapIndexD_le (ps : List (V0 × V0)) (k : V0) :
    sizeOf (mapIndexD ps k) ≤ sizeOf ps := by
  unfold mapIndexD
  split
  next p hfind =>
    have hmem := List.mem_of_find?_eq_some hfind
    have h2 := List.sizeOf_lt_of_mem hmem
    obtain ⟨a, b⟩ := p
    simp at *
    omega
  next =>
    have h1 := one_le_sizeOf_list ps
    simp
    omega

/-- `reflect.DeepEqual` for the modelled kinds.  Maps compare by looking
every key of `x` up in `y` with Go key equality; non-nil pointers are
equal when their addresses coincide (Go's same-address shortcut), and
otherwise deep-compare their targets. -/
def deepEq : V0 → V0 → Bool
  | .invalid, .invalid => true
  | .boolV a, .boolV b => a = b
  | .intV a, .intV b => a = b
  | .floatV a, .floatV b => F.goEq a b
  | .complexV a b, .complexV c d => F.goEq a c && F.goEq b d
  | .strV a, .strV b => a = b
  | .sliceV a, .sliceV b =>
    a.length = b.length && (a.zip b).attach.all fun p => deepEq p.1.1 p.1.2
  | .arrV a, .arrV b =>
    a.length = b.length && (a.zip b).attach.all fun p => deepEq p.1.1 p.1.2
  | .mapV a, .mapV b =>
    a.length = b.length &&
      a.attach.all fun p =>
        (mapIndexD b p.1.1).isValid && deepEq p.1.2 (mapIndexD b p.1.1)
  | .structV a, .structV b =>
    a.length = b.length &&
      (a.zip b).attach.all fun p => p.1.1.1 = p.1.2.1 && deepEq p.1.1.2 p.1.2.2
  | .ptrV none, .ptrV none => true
  | .ptrV (some p), .ptrV (some q) => p.1 = q.1 || deepEq p.2 q.2
  | _, _ => false
termination_by x y => sizeOf x + sizeOf y
decreasing_by
  · obtain ⟨⟨u, v⟩, hp⟩ := p
    obtain ⟨h1, h2⟩ := List.of_mem_zip hp
    have h3 := List.sizeOf_lt_of_mem h1
    have h4 := List.sizeOf_lt_of_mem h2
    simp at *
    omega
  · obtain ⟨⟨u, v⟩, hp⟩ := p
    obtain ⟨h1, h2⟩ := List.of_mem_zip hp
    have h3 := List.sizeOf_lt_of_mem h1
    have h4 := List.sizeOf_lt_of_mem h2
    simp at *
    omega
  · obtain ⟨⟨u, v⟩, hp⟩ := p
    have h1 := List.sizeOf_lt_of_mem hp
    have h2 := sizeOf_mapIndexD_le b u
    simp at *
    omega
  · obtain ⟨⟨⟨n1, u⟩, n2, v⟩, hp⟩ := p
    obtain ⟨h1, h2⟩ := List.of_mem_zip hp
    have h3 := List.sizeOf_lt_of_mem h1
    have h4 := List.sizeOf_lt_of_mem h2
    simp at *
    omega
  · obtain ⟨a, t⟩ := p
    obtain ⟨b, u⟩ := q
    simp
    omega

/-- `EqualResult` (equal.go).  `RelativeError`/`AbsoluteError` are
`reflect.Value`s in Go whose zero value is the invalid value, which the
code leaves in place on some paths, so they are modelled as `V0`. -/
structure Res where
  ok : Bool
  numerical : Bool
  relativeError : V0
  absoluteError : V0
  position : ℕ
  lengthMismatch : Bool
  missingValue : Bool

/-- The zero `EqualResult`: all fields at their Go zero values (the error
fields are invalid `reflect.Value`s). -/
def resZero : Res :=
  { ok := false, numerical := false, relativeError := .invalid,
    absoluteError := .invalid, position := 0, lengthMismatch := false,
    missingValue := false }

/-- The result `equal` returns on a kind mismatch: by that point it has
already set both error fields to `reflect.ValueOf(0.)`. -/
def resKindFalse : Res :=
  { resZero with
      relativeError := .floatV (.fin false 0)
      absoluteError := .floatV (.fin false 0) }

/-- Extract the float held in a `reflect.Value` field.  `equalComplex`
reads `rr.RelativeError.Interface().(float64)`; on the one path where
`equalFloat` leaves `RelativeError` invalid (mismatched signed zeros) the
Go code would panic, the model returns NaN, and no theorem below depends
on that path. -/
def getF : V0 → F
  | .floatV f => f
  | _ => .nan false

/-- `equalFloat` (equal.go): whether float64 `x` equals `y` within `tol`.
Straight-line translation of the four branches; note the strict `<` in
the `y == 0` branch and the non-strict `<=` in the general branch. -/
def equalFloat (x y : F) (tol : ℚ) : Res :=
  let diff := F.sub x y
  if x.isNaN && y.isNaN then
    { resZero with
        ok := true
        numerical := true
        relativeError := .floatV (.fin false 0)
        absoluteError := .floatV diff }
  else if F.goEq x y || y.isInf then
    if x.signbit == y.signbit then
      { resZero with
          ok := true
          numerical := true
          relativeError := .floatV (.fin false 0)
          absoluteError := .floatV (.fin false 0) }
    else if y.isInf then
      { resZero with
          ok := false
          numerical := true
          relativeError := .floatV y
          absoluteError := .floatV y }
    else
      -- mismatched signed zeros: RelativeError is never assigned
      { resZero with
          ok := false
          numerical := true
          relativeError := .invalid
          absoluteError := .floatV diff }
  else if y.isZero then
    { resZero with
        ok := F.goLt diff.goAbs (F.ofQ tol).goAbs
        numerical := true
        relativeError := .floatV diff
        absoluteError := .floatV diff }
  else
    { resZero with
        ok := F.goLe diff.goAbs (F.ofQ (y.val * tol)).goAbs
        numerical := true
        relativeError := .floatV (diff.div y)
        absoluteError := .floatV diff }

/-- `equalComplex` (equal.go): the real-number policy applied to both
parts; `ok` is the conjunction and the error fields combine both parts. -/
def equalComplex (xr xi yr yi : F) (tol : ℚ) : Res :=
  let rr := equalFloat xr yr tol
  let ir := equalFloat xi yi tol
  { resZero with
      ok := rr.ok && ir.ok
      numerical := true
      relativeError := .complexV (getF rr.relativeError) (getF ir.relativeError)
      absoluteError := .complexV (getF rr.absoluteError) (getF ir.absoluteError) }

/-- The element loop of `equalSlice`, threading the `res` named return
exactly as the Go loop does (on success `res` is the last element's
result; on failure `Position` is overwritten with the index). -/
def sliceLoop (eq : V0 → V0 → Res) : List V0 → List V0 → ℕ → Res → Res
  | [], _, _, prev => prev
  | _ :: _, [], _, prev => prev
  | a :: as, b :: bs, i, _ =>
    let r := eq a b
    if r.ok then sliceLoop eq as bs (i + 1) r else { r with position := i }

/-- `equalSlice` (equal.go), parameterised by the recursive comparison. -/
def equalSlice (eq : V0 → V0 → Res) (as bs : List V0) : Res :=
  if as.length = bs.length then
    sliceLoop eq as bs 0 { resZero with ok := true }
  else
    { resZero with ok := false, lengthMismatch := true }

/-- The field loop of `equalStruct`: a differing field name sets
`MissingValue` (keeping the threaded result's other fields); a failing
recursive comparison sets `Position`. -/
def structLoop (eq : V0 → V0 → Res) :
    List (String × V0) → List (String × V0) → ℕ → Res → Res
  | [], _, _, prev => prev
  | _ :: _, [], _, prev => prev
  | f :: fs, g :: gs, i, prev =>
    if f.1 = g.1 then
      let r := eq f.2 g.2
      if r.ok then structLoop eq fs gs (i + 1) r else { r with position := i }
    else
      { prev with ok := false, missingValue := true, position := i }

/-- `equalStruct` (equal.go). -/
def equalStruct (eq : V0 → V0 → Res) (fs gs : List (String × V0)) : Res :=
  if fs.length = gs.length then
    structLoop eq fs gs 0 { resZero with ok := true }
  else
    { resZero with ok := false, lengthMismatch := true }

/-- The inner key-search loop of `equalMap`: try every key of `x` against
`ykey` with the full recursive comparison, stopping at the first match;
the threaded result keeps the last attempted comparison when nothing
matches. -/
def findKeyRes (eq : V0 → V0 → Res) (prev : Res) : List V0 → V0 → Res
  | [], _ => prev
  | k :: ks, ykey =>
    let r := eq k ykey
    if r.ok then r else findKeyRes eq r ks ykey

/-- The outer loop of `equalMap` over `expected`'s key list, threading
the result: a key of `y` that no key of `x` matches yields `MissingValue`
with `Position` the key's index; otherwise the values found by `MapIndex`
(Go key lookup, which can miss and yield the invalid value even after a
tolerant key match) are compared recursively. -/
def mapLoop (eq : V0 → V0 → Res) (xp yp : List (V0 × V0)) :
    List (V0 × V0) → ℕ → Res → Res
  | [], _, prev => prev
  | q :: qs, i, prev =>
    let f := findKeyRes eq prev (xp.map Prod.fst) q.1
    if f.ok then
      let r := eq (mapIndexD xp q.1) (mapIndexD yp q.1)
      if r.ok then mapLoop eq xp yp qs (i + 1) r else { r with position := i }
    else
      { f with position := i, missingValue := true }

/-- `equalMap` (equal.go). -/
def equalMap (eq : V0 → V0 → Res) (xp yp : List (V0 × V0)) : Res :=
  if xp.length = yp.length then
    mapLoop eq xp yp yp 0 { resZero with ok := true }
  else
    { resZero with ok := false, lengthMismatch := true }

/-- `equal` (equal.go), with an explicit fuel bounding the recursion
depth so that the definition is a structural recursion.  Any fuel larger
than `sizeOf x + sizeOf y` computes the function the Go code computes
(`equal_irrel` below shows the result is then independent of the fuel);
the `0` case is unreachable under that bound.

The body follows the Go function line by line: an invalid `expected` is
replaced by the zero value of `actual`'s type, an invalid `actual` fails
with the zero result, a kind mismatch fails (with both error fields set
to `0.`), and otherwise the comparison dispatches on the kind.  Integer
kinds are converted to float64 and compared numerically; `Bool`,
`String` and `Ptr` fall to `reflect.DeepEqual`. -/
def equalBody (eq : V0 → V0 → Res) (x y : V0) (tol : ℚ) : Res :=
  let y := if !y.isValid && x.isValid then x.zeroOf else y
  if !x.isValid then resZero
  else if x.kindOf ≠ y.kindOf then resKindFalse
  else
    match x, y with
    | .sliceV a, .sliceV b => equalSlice eq a b
    | .arrV a, .arrV b => equalSlice eq a b
    | .mapV a, .mapV b => equalMap eq a b
    | .structV a, .structV b => equalStruct eq a b
    | .floatV f, .floatV g => equalFloat f g tol
    | .intV m, .intV n => equalFloat (F.ofInt m) (F.ofInt n) tol
    | .complexV a b, .complexV c d => equalComplex a b c d tol
    | x, y => { resKindFalse with ok := deepEq x y }

def equal : ℕ → V0 → V0 → ℚ → Res
  | 0, _, _, _ => resZero
  | fuel + 1, x, y, tol => equalBody (fun a b => equal fuel a b tol) x y tol

/-- Any value of the model has positive auto-generated size. -/
theorem one_le_sizeOf_V0 (v : V0) : 1 ≤ sizeOf v := by
  cases v <;> simp <;> omega

/-- `sliceLoop` depends on `eq` only at elements of the first list. -/
theorem sliceLoop_congr (eq eq' : V0 → V0 → Res) :
    ∀ (as bs : List V0) (i : ℕ) (prev : Res),
      (∀ a ∈ as, ∀ b, eq a b = eq' a b) →
      sliceLoop eq as bs i prev = sliceLoop eq' as bs i prev := by
  intro as
  induction as with
  | nil => intro bs i prev _; cases bs <;> rfl
  | cons a as ih =>
    intro bs i prev h
    cases bs with
    | nil => rfl
    | cons b bs =>
      have ha := h a (by simp) b
      simp only [sliceLoop, ha]
      split
      · exact ih bs (i + 1) _ (fun a' ha' b' => h a' (by simp [ha']) b')
      · rfl

/-- `structLoop` depends on `eq` only at field values of the first list. -/
theorem structLoop_congr (eq eq' : V0 → V0 → Res) :
    ∀ (fs gs : List (String × V0)) (i : ℕ) (prev : Res),
      (∀ p ∈ fs, ∀ b, eq p.2 b = eq' p.2 b) →
      structLoop eq fs gs i prev = structLoop eq' fs gs i prev := by
  intro fs
  induction fs with
  | nil => intro gs i prev _; cases gs <;> rfl
  | cons f fs ih =>
    intro gs i prev h
    cases gs with
    | nil => rfl
    | cons g gs =>
      have hf := h f (by simp) g.2
      simp only [structLoop, hf]
      split
      · split
        · exact ih gs (i + 1) _ (fun p hp b => h p (by simp [hp]) b)
        · rfl
      · rfl

/-- `findKeyRes` depends on `eq` only at the candidate keys. -/
theorem findKeyRes_congr (eq eq' : V0 → V0 → Res) :
    ∀ (ks : List V0) (prev : Res) (ykey : V0),
      (∀ k ∈ ks, ∀ b, eq k b = eq' k b) →
      findKeyRes eq prev ks ykey = findKeyRes eq' prev ks ykey := by
  intro ks
  induction ks with
  | nil => intro prev ykey _; rfl
  | cons k ks ih =>
    intro prev ykey h
    have hk := h k (by simp) ykey
    simp only [findKeyRes, hk]
    split
    · rfl
    · exact ih _ ykey (fun k' hk' b => h k' (by simp [hk']) b)

/-- `mapLoop` depends on `eq` only at keys of `x` and at `x`'s looked-up
values. -/
theorem mapLoop_congr (eq eq' : V0 → V0 → Res) (xp yp : List (V0 × V0)) :
    ∀ (qs : List (V0 × V0)) (i : ℕ) (prev : Res),
      (∀ k ∈ xp.map Prod.fst, ∀ b, eq k b = eq' k b) →
      (∀ k b, eq (mapIndexD xp k) b = eq' (mapIndexD xp k) b) →
      mapLoop eq xp yp qs i prev = mapLoop eq' xp yp qs i prev := by
  intro qs
  induction qs with
  | nil => intro i prev _ _; rfl
  | cons q qs ih =>
    intro i prev hk hv
    have hf := findKeyRes_congr eq eq' (xp.map Prod.fst) prev q.1 hk
    simp only [mapLoop, hf, hv q.1 (mapIndexD yp q.1)]
    split
    · split
      · exact ih (i + 1) _ hk hv
      · rfl
    · rfl

/-- `equalSlice` congruence. -/
theorem equalSlice_congr (eq eq' : V0 → V0 → Res) (as bs : List V0)
    (h : ∀ a ∈ as, ∀ b, eq a b = eq' a b) :
    equalSlice eq as bs = equalSlice eq' as bs := by
  unfold equalSlice
  split
  · exact sliceLoop_congr eq eq' as bs 0 _ h
  · rfl

/-- `equalStruct` congruence. -/
theorem equalStruct_congr (eq eq' : V0 → V0 → Res) (fs gs : List (String × V0))
    (h : ∀ p ∈ fs, ∀ b, eq p.2 b = eq' p.2 b) :
    equalStruct eq fs gs = equalStruct eq' fs gs := by
  unfold equalStruct
  split
  · exact structLoop_congr eq eq' fs gs 0 _ h
  · rfl

/-- `equalMap` congruence. -/
theorem equalMap_congr (eq eq' : V0 → V0 → Res) (xp yp : List (V0 × V0))
    (hk : ∀ k ∈ xp.map Prod.fst, ∀ b, eq k b = eq' k b)
    (hv : ∀ k b, eq (mapIndexD xp k) b = eq' (mapIndexD xp k) b) :
    equalMap eq xp yp = equalMap eq' xp yp := by
  unfold equalMap
  split
  · exact mapLoop_congr eq eq' xp yp yp 0 _ hk hv
  · rfl

/-- `equalBody` uses `eq` only at arguments strictly smaller than `x`
(its first argument always comes from `x`'s own sub-values). -/
theorem equalBody_congr (eq eq' : V0 → V0 → Res) (x y : V0) (tol : ℚ)
    (h : ∀ a b, sizeOf a < sizeOf x → eq a b = eq' a b) :
    equalBody eq x y tol = equalBody eq' x y tol := by
  have hmem : ∀ (l : List V0), sizeOf l < sizeOf x →
      ∀ a ∈ l, ∀ b, eq a b = eq' a b := by
    intro l hl a ha b
    have := List.sizeOf_lt_of_mem ha
    exact h a b (by omega)
  have hmemp : ∀ (l : List (V0 × V0)), sizeOf l < sizeOf x →
      (∀ k ∈ l.map Prod.fst, ∀ b, eq k b = eq' k b) ∧
      (∀ k b, eq (mapIndexD l k) b = eq' (mapIndexD l k) b) := by
    intro l hl
    constructor
    · intro k hk b
      obtain ⟨p, hp, rfl⟩ := List.mem_map.1 hk
      have h1 := List.sizeOf_lt_of_mem hp
      obtain ⟨k, v⟩ := p
      simp at h1
      exact h k b (by omega)
    · intro k b
      have := sizeOf_mapIndexD_le l k
      exact h _ b (by omega)
  have hmemf : ∀ (l : List (String × V0)), sizeOf l < sizeOf x →
      ∀ p ∈ l, ∀ b, eq p.2 b = eq' p.2 b := by
    intro l hl p hp b
    have h1 := List.sizeOf_lt_of_mem hp
    obtain ⟨n, v⟩ := p
    simp at h1
    exact h v b (by omega)
  cases x <;> cases y <;> try rfl
  all_goals simp only [equalBody, V0.zeroOf, V0.isValid, V0.kindOf, reduceIte]
  all_goals try rfl
  all_goals first
    | exact equalSlice_congr eq eq' _ _ (hmem _ (by simp <;> omega))
    | exact equalStruct_congr eq eq' _ _ (hmemf _ (by simp <;> omega))
    | exact equalMap_congr eq eq' _ _ ((hmemp _ (by simp <;> omega)).1)
        ((hmemp _ (by simp <;> omega)).2)

/-- Fuel irrelevance: any fuel exceeding `sizeOf x` computes the same
result (the recursion always descends into sub-values of `x`). -/
theorem equal_irrel : ∀ (n m : ℕ) (x y : V0) (tol : ℚ),
    sizeOf x < n → sizeOf x < m → equal n x y tol = equal m x y tol := by
  intro n
  induction n with
  | zero => intro m x y tol hn _; have := one_le_sizeOf_V0 x; omega
  | succ n ih =>
    intro m x y tol hn hm
    cases m with
    | zero => have := one_le_sizeOf_V0 x; omega
    | succ m =>
      simp only [equal]
      apply equalBody_congr
      intro a b ha
      exact ih m a b tol (by omega) (by omega)

/-- Whether a float is finite (neither NaN nor infinite). -/
def F.isFinite : F → Bool
  | .fin _ _ => true
  | _ => false

/-- C1 (counterexample): the claim predicts `ok = true` whenever
`|diff| <= |bound|` with `bound` falling back to `t` when `t*|y| = 0`;
at `x = 1.0`, `y = 0.0`, `t = 1.0` the claim's bound is `1` and
`|diff| = 1 <= 1`, yet the code returns `ok = false`, because the
`y == 0` branch compares strictly (`<`, equal.go line 264).  The last
conjunct records that the claimed formula holds at this input, the first
that the code disagrees. -/
theorem c1_counterexample :
    (equal 10 (.floatV (.fin false 1)) (.floatV (.fin false 0)) 1).ok = false ∧
    F.goEq (.fin false 1) (.fin false 0) = false ∧
    |(1 : ℚ) - 0| ≤ |(1 : ℚ)| := by
  refine ⟨?_, ?_, by norm_num⟩
  · simp [equal, equalBody, equalFloat, F.sub, F.goEq, F.val, F.isNaN, F.isZero,
      F.isInf, F.goLt, F.goAbs, F.ofQ, V0.isValid, V0.kindOf]
  · simp [F.goEq, F.val]

/-- One step of `equal` on two floats is `equalFloat`. -/
theorem equal_floatV (f : ℕ) (x y : F) (tol : ℚ) :
    equal (f + 1) (.floatV x) (.floatV y) tol = equalFloat x y tol := rfl

/-- The absolute value of the Go difference of two finite floats is the
absolute value of the exact difference. -/
theorem goAbs_sub_fin (sx sy : Bool) (mx my : ℚ) :
    ((F.fin sx mx).sub (.fin sy my)).goAbs =
      .fin false |(F.fin sx mx).val - (F.fin sy my).val| := by
  rcases eq_or_ne ((F.fin sx mx).val - (F.fin sy my).val) 0 with h | h
  · simp [F.sub, F.goAbs, h]
  · simp [F.sub, F.goAbs, h, abs_abs]

/-- The `ok` outcome of `equalFloat` on finite, non-Go-equal floats:
strict `<` against `|t|` when `y == 0`, non-strict `<=` against `|y*t|`
otherwise. -/
theorem equalFloat_fin_ok (sx sy : Bool) (mx my tol : ℚ)
    (hne : F.goEq (.fin sx mx) (.fin sy my) = false) :
    (equalFloat (.fin sx mx) (.fin sy my) tol).ok =
      (if (F.fin sy my).val = 0
       then decide (|(F.fin sx mx).val - (F.fin sy my).val| < |tol|)
       else decide (|(F.fin sx mx).val - (F.fin sy my).val| ≤ |(F.fin sy my).val * tol|)) := by
  have h1 : ((F.fin sx mx).isNaN && (F.fin sy my).isNaN) = false := by simp [F.isNaN]
  have h2 : (F.goEq (.fin sx mx) (.fin sy my) || (F.fin sy my).isInf) = false := by
    simp [hne, F.isInf]
  rcases eq_or_ne (F.val (.fin sy my)) 0 with hz | hz
  · have h3 : (F.fin sy my).isZero = true := by simp [F.isZero, hz]
    simp only [equalFloat, h1, h2, h3, Bool.false_eq_true, reduceIte, if_pos hz]
    rw [goAbs_sub_fin]
    simp [F.ofQ, F.goAbs, F.goLt, F.val, abs_abs]
  · have h3 : (F.fin sy my).isZero = false := by simp [F.isZero, hz]
    simp only [equalFloat, h1, h2, h3, Bool.false_eq_true, reduceIte, if_neg hz]
    rw [goAbs_sub_fin]
    simp [F.ofQ, F.goAbs, F.goLe, F.val, abs_abs]

/-- C1 (amended): for finite `x`, `y` that are not Go-equal, the code
computes `diff = x - y` (reported as the absolute error) and then: if
`y == 0` it requires `|diff| < |t|` strictly (the bound is `t` itself,
not `t*|y|`); otherwise it requires `|diff| <= |y*t|`, with no fallback
when the product is zero.  In particular `compare(eps, 0.0, t)` is `ok`
exactly when `|eps| < t`, not `|eps| <= t`. -/
theorem c1_amended (x y : F) (tol : ℚ) (fuel : ℕ) (hfuel : 0 < fuel)
    (hx : x.isFinite = true) (hy : y.isFinite = true)
    (hne : F.goEq x y = false) :
    ((equal fuel (.floatV x) (.floatV y) tol).ok = true ↔
        (if y.val = 0 then |x.val - y.val| < |tol|
         else |x.val - y.val| ≤ |y.val * tol|)) ∧
    (equal fuel (.floatV x) (.floatV y) tol).absoluteError = .floatV (x.sub y) := by
  obtain ⟨f, rfl⟩ : ∃ f, fuel = f + 1 := ⟨fuel - 1, by omega⟩
  rw [equal_floatV]
  cases x with
  | nan s => simp [F.isFinite] at hx
  | inf s => simp [F.isFinite] at hx
  | fin sx mx =>
    cases y with
    | nan s => simp [F.isFinite] at hy
    | inf s => simp [F.isFinite] at hy
    | fin sy my =>
      constructor
      · rw [equalFloat_fin_ok sx sy mx my tol hne]
        rcases eq_or_ne (F.val (.fin sy my)) 0 with hz | hz
        · rw [if_pos hz, if_pos hz]
          simp
        · rw [if_neg hz, if_neg hz]
          simp
      · have h1 : ((F.fin sx mx).isNaN && (F.fin sy my).isNaN) = false := by
          simp [F.isNaN]
        have h2 : (F.goEq (.fin sx mx) (.fin sy my) || (F.fin sy my).isInf) = false := by
          simp [hne, F.isInf]
        simp only [equalFloat, h1, h2, Bool.false_eq_true, reduceIte]
        split <;> rfl

/-- C1 amended claim, evaluated at `x = 3.0`, `y = 2.0`, `t = 1.0`. -/
theorem c1_amended_witness :
    F.goEq (.fin false 3) (.fin false 2) = false ∧
    (((equal 1 (.floatV (.fin false 3)) (.floatV (.fin false 2)) 1).ok = true ↔
        (if (F.fin false 2).val = 0
         then |(F.fin false 3).val - (F.fin false 2).val| < |(1 : ℚ)|
         else |(F.fin false 3).val - (F.fin false 2).val| ≤ |(F.fin false 2).val * 1|)) ∧
      (equal 1 (.floatV (.fin false 3)) (.floatV (.fin false 2)) 1).absoluteError =
        .floatV ((F.fin false 3).sub (.fin false 2))) :=
  ⟨by norm_num [F.goEq, F.val],
   c1_amended (.fin false 3) (.fin false 2) 1 1 (by norm_num) rfl rfl
     (by norm_num [F.goEq, F.val])⟩

/-- C3: when `x == y` exactly or `y` is infinite (and the NaN branch is
not taken, which those conditions preclude), the comparison succeeds
exactly when the sign bits agree; hence `+0.0` vs `-0.0` fails at zero
tolerance, `+Inf` vs `+Inf` succeeds and `+Inf` vs `-Inf` fails for
every tolerance. -/
theorem c3_signbit :
    (∀ (x y : F) (tol : ℚ) (fuel : ℕ), 0 < fuel →
        (F.goEq x y = true ∨ y.isInf = true) →
        (equal fuel (.floatV x) (.floatV y) tol).ok = (x.signbit == y.signbit)) ∧
    (equal 1 (.floatV (.fin false 0)) (.floatV (.fin true 0)) 0).ok = false ∧
    (∀ tol : ℚ, (equal 1 (.floatV (.inf false)) (.floatV (.inf false)) tol).ok = true) ∧
    (∀ tol : ℚ, (equal 1 (.floatV (.inf false)) (.floatV (.inf true)) tol).ok = false) := by
  refine ⟨?_, ?_, fun tol => rfl, fun tol => rfl⟩
  · intro x y tol fuel hf h
    obtain ⟨f, rfl⟩ : ∃ f, fuel = f + 1 := ⟨fuel - 1, by omega⟩
    rw [equal_floatV]
    have hnan : (x.isNaN && y.isNaN) = false := by
      rcases h with h | h
      · cases x <;> cases y <;> simp_all [F.goEq, F.isNaN]
      · cases y <;> simp_all [F.isInf, F.isNaN]
    have hor : (F.goEq x y || y.isInf) = true := by
      rcases h with h | h <;> simp [h]
    simp only [equalFloat, hnan, hor, Bool.false_eq_true, reduceIte, if_true]
    cases hsb : (x.signbit == y.signbit)
    · simp only [Bool.false_eq_true, reduceIte]
      split <;> rfl
    · simp only [reduceIte]
  · norm_num [equal, equalBody, equalFloat, F.goEq, F.val, F.isNaN, F.isInf,
      F.signbit, V0.isValid, V0.kindOf]

/-- C3 evaluated at `+Inf` vs `-Inf` with tolerance `7`. -/
theorem c3_signbit_witness :
    (equal 1 (.floatV (.inf false)) (.floatV (.inf true)) 7).ok =
      (F.signbit (.inf false) == F.signbit (.inf true)) :=
  c3_signbit.1 (.inf false) (.inf true) 7 1 (by norm_num) (Or.inr rfl)

/-- One step of `equal` on two slices. -/
theorem equal_sliceV (f : ℕ) (a b : List V0) (tol : ℚ) :
    equal (f + 1) (.sliceV a) (.sliceV b) tol =
      equalSlice (fun u v => equal f u v tol) a b := rfl

/-- One step of `equal` on two arrays. -/
theorem equal_arrV (f : ℕ) (a b : List V0) (tol : ℚ) :
    equal (f + 1) (.arrV a) (.arrV b) tol =
      equalSlice (fun u v => equal f u v tol) a b := rfl

/-- One step of `equal` on two maps. -/
theorem equal_mapV (f : ℕ) (a b : List (V0 × V0)) (tol : ℚ) :
    equal (f + 1) (.mapV a) (.mapV b) tol =
      equalMap (fun u v => equal f u v tol) a b := rfl

/-- One step of `equal` on two structs. -/
theorem equal_structV (f : ℕ) (a b : List (String × V0)) (tol : ℚ) :
    equal (f + 1) (.structV a) (.structV b) tol =
      equalStruct (fun u v => equal f u v tol) a b := rfl

/-- One step of `equal` on an invalid actual value. -/
theorem equal_invalidX (f : ℕ) (y : V0) (tol : ℚ) :
    equal (f + 1) .invalid y tol = resZero := rfl

/-- `equalFloat` is reflexive for every float, including NaN (first
branch) and signed zeros/infinities (sign bits agree with themselves). -/
theorem equalFloat_self (x : F) (tol : ℚ) : (equalFloat x x tol).ok = true := by
  cases x with
  | nan s => rfl
  | inf s => simp [equalFloat, F.isNaN, F.goEq, F.isInf, F.signbit]
  | fin s m => simp [equalFloat, F.isNaN, F.goEq, F.isInf, F.signbit, F.val]

/-- `findKeyRes` succeeds as soon as some candidate key matches. -/
theorem findKeyRes_ok_of_exists (eq : V0 → V0 → Res) :
    ∀ (ks : List V0) (prev : Res) (ykey : V0),
      (∃ k ∈ ks, (eq k ykey).ok = true) →
      (findKeyRes eq prev ks ykey).ok = true := by
  intro ks
  induction ks with
  | nil => intro prev ykey h; simp at h
  | cons k ks ih =>
    intro prev ykey h
    simp only [findKeyRes]
    by_cases hk : (eq k ykey).ok = true
    · simp [hk]
    · rcases h with ⟨k', hk', hok⟩
      rcases List.mem_cons.1 hk' with rfl | hmem
      · exact absurd hok hk
      · simp only [Bool.not_eq_true] at hk
        simp only [hk, Bool.false_eq_true, reduceIte]
        exact ih _ ykey ⟨k', hmem, hok⟩

/-- A self-matching key of a duplicate-free map looks itself up. -/
theorem mapIndexD_self :
    ∀ (ps : List (V0 × V0)),
      ps.Pairwise (fun p q => keyEq p.1 q.1 = false) →
      ∀ p ∈ ps, keyEq p.1 p.1 = true → mapIndexD ps p.1 = p.2 := by
  intro ps
  induction ps with
  | nil => intro _ p hp; simp at hp
  | cons r rs ih =>
    intro hdist p hp hself
    rcases List.mem_cons.1 hp with rfl | hmem
    · simp [mapIndexD, List.find?, hself]
    · have hne : keyEq r.1 p.1 = false :=
        (List.pairwise_cons.1 hdist).1 p hmem
      simp only [mapIndexD, List.find?, hne]
      exact ih (List.pairwise_cons.1 hdist).2 p hmem hself

/-- `sliceLoop` on a diagonal list succeeds when every element compares
equal to itself. -/
theorem sliceLoop_self_ok (eq : V0 → V0 → Res) :
    ∀ (l : List V0) (i : ℕ) (prev : Res), prev.ok = true →
      (∀ a ∈ l, (eq a a).ok = true) →
      (sliceLoop eq l l i prev).ok = true := by
  intro l
  induction l with
  | nil => intro i prev hp _; exact hp
  | cons a l ih =>
    intro i prev hp h
    have ha := h a (by simp)
    simp only [sliceLoop, ha, reduceIte]
    exact ih (i + 1) _ ha (fun a' ha' => h a' (by simp [ha']))

/-- `structLoop` on a diagonal field list succeeds when every field value
compares equal to itself. -/
theorem structLoop_self_ok (eq : V0 → V0 → Res) :
    ∀ (l : List (String × V0)) (i : ℕ) (prev : Res), prev.ok = true →
      (∀ p ∈ l, (eq p.2 p.2).ok = true) →
      (structLoop eq l l i prev).ok = true := by
  intro l
  induction l with
  | nil => intro i prev hp _; exact hp
  | cons p l ih =>
    intro i prev hp h
    have ha := h p (by simp)
    simp only [structLoop, ha, reduceIte, if_pos rfl]
    exact ih (i + 1) _ ha (fun p' hp' => h p' (by simp [hp']))

/-- `mapLoop` succeeds when every pending expected key has an engine
match among `x`'s keys and the looked-up values compare equal. -/
theorem mapLoop_self_ok (eq : V0 → V0 → Res) (xp yp : List (V0 × V0)) :
    ∀ (qs : List (V0 × V0)) (i : ℕ) (prev : Res), prev.ok = true →
      (∀ q ∈ qs, ∃ k ∈ xp.map Prod.fst, (eq k q.1).ok = true) →
      (∀ q ∈ qs, (eq (mapIndexD xp q.1) (mapIndexD yp q.1)).ok = true) →
      (mapLoop eq xp yp qs i prev).ok = true := by
  intro qs
  induction qs with
  | nil => intro i prev hp _ _; exact hp
  | cons q qs ih =>
    intro i prev hp hfind hval
    have hf : (findKeyRes eq prev (xp.map Prod.fst) q.1).ok = true :=
      findKeyRes_ok_of_exists eq _ prev q.1 (hfind q (by simp))
    have hv := hval q (by simp)
    simp only [mapLoop, hf, hv, reduceIte]
    exact ih (i + 1) _ hv (fun q' hq' => hfind q' (by simp [hq']))
      (fun q' hq' => hval q' (by simp [hq']))

/-- Values for which the comparison is reflexive: everything except
function values, invalid values, and maps whose keys are not
Go-self-equal (NaN anywhere inside a key) or not pairwise distinct.
Pointers are always reflexive: `DeepEqual` and map-key `==` compare them
by address first, so a pointer equals itself whatever its target. -/
inductive Reflexable : V0 → Prop where
  | boolV (b : Bool) : Reflexable (.boolV b)
  | intV (n : ℤ) : Reflexable (.intV n)
  | floatV (f : F) : Reflexable (.floatV f)
  | complexV (re im : F) : Reflexable (.complexV re im)
  | strV (s : String) : Reflexable (.strV s)
  | sliceV (l : List V0) (h : ∀ v ∈ l, Reflexable v) : Reflexable (.sliceV l)
  | arrV (l : List V0) (h : ∀ v ∈ l, Reflexable v) : Reflexable (.arrV l)
  | mapV (ps : List (V0 × V0))
      (hkeys : ∀ p ∈ ps, keyEq p.1 p.1 = true)
      (hdist : ps.Pairwise fun p q => keyEq p.1 q.1 = false)
      (hk : ∀ p ∈ ps, Reflexable p.1)
      (hv : ∀ p ∈ ps, Reflexable p.2) : Reflexable (.mapV ps)
  | structV (fs : List (String × V0)) (h : ∀ p ∈ fs, Reflexable p.2) :
      Reflexable (.structV fs)
  | ptrV (p : Option (ℕ × V0)) : Reflexable (.ptrV p)

/-- Reflexivity of `equal` on `Reflexable` values, for any fuel beyond
the size of the value. -/
theorem equal_self_ok (tol : ℚ) :
    ∀ (x : V0), Reflexable x →
      ∀ (fuel : ℕ), sizeOf x < fuel → (equal fuel x x tol).ok = true := by
  intro x hx
  induction hx with
  | boolV b =>
    intro fuel hfuel
    obtain ⟨f, rfl⟩ : ∃ f, fuel = f + 1 := ⟨fuel - 1, by omega⟩
    simp [equal, equalBody, V0.isValid, V0.kindOf, deepEq]
  | intV n =>
    intro fuel hfuel
    obtain ⟨f, rfl⟩ : ∃ f, fuel = f + 1 := ⟨fuel - 1, by omega⟩
    show (equalFloat (F.ofInt n) (F.ofInt n) tol).ok = true
    exact equalFloat_self _ tol
  | floatV g =>
    intro fuel hfuel
    obtain ⟨f, rfl⟩ : ∃ f, fuel = f + 1 := ⟨fuel - 1, by omega⟩
    show (equalFloat g g tol).ok = true
    exact equalFloat_self g tol
  | complexV re im =>
    intro fuel hfuel
    obtain ⟨f, rfl⟩ : ∃ f, fuel = f + 1 := ⟨fuel - 1, by omega⟩
    have h1 := equalFloat_self re tol
    have h2 := equalFloat_self im tol
    show (equalComplex re im re im tol).ok = true
    simp [equalComplex, h1, h2]
  | strV s =>
    intro fuel hfuel
    obtain ⟨f, rfl⟩ : ∃ f, fuel = f + 1 := ⟨fuel - 1, by omega⟩
    simp [equal, equalBody, V0.isValid, V0.kindOf, deepEq]
  | sliceV l h ih =>
    intro fuel hfuel
    obtain ⟨f, rfl⟩ : ∃ f, fuel = f + 1 := ⟨fuel - 1, by omega⟩
    rw [equal_sliceV]
    simp only [equalSlice, if_pos rfl]
    refine sliceLoop_self_ok _ l 0 _ rfl (fun a ha => ?_)
    have := List.sizeOf_lt_of_mem ha
    exact ih a ha f (by simp at hfuel ⊢; omega)
  | arrV l h ih =>
    intro fuel hfuel
    obtain ⟨f, rfl⟩ : ∃ f, fuel = f + 1 := ⟨fuel - 1, by omega⟩
    rw [equal_arrV]
    simp only [equalSlice, if_pos rfl]
    refine sliceLoop_self_ok _ l 0 _ rfl (fun a ha => ?_)
    have := List.sizeOf_lt_of_mem ha
    exact ih a ha f (by simp at hfuel ⊢; omega)
  | mapV ps hkeys hdist hk hv ihk ihv =>
    intro fuel hfuel
    obtain ⟨f, rfl⟩ : ∃ f, fuel = f + 1 := ⟨fuel - 1, by omega⟩
    rw [equal_mapV]
    simp only [equalMap, if_pos rfl]
    refine mapLoop_self_ok _ ps ps ps 0 _ rfl (fun q hq => ?_) (fun q hq => ?_)
    · refine ⟨q.1, List.mem_map_of_mem Prod.fst hq, ?_⟩
      have hs := List.sizeOf_lt_of_mem hq
      refine ihk q hq f ?_
      obtain ⟨k, v⟩ := q
      simp at hs hfuel ⊢
      omega
    · rw [mapIndexD_self ps hdist q hq (hkeys q hq)]
      have hs := List.sizeOf_lt_of_mem hq
      refine ihv q hq f ?_
      obtain ⟨k, v⟩ := q
      simp at hs hfuel ⊢
      omega
  | structV fs h ih =>
    intro fuel hfuel
    obtain ⟨f, rfl⟩ : ∃ f, fuel = f + 1 := ⟨fuel - 1, by omega⟩
    rw [equal_structV]
    simp only [equalStruct, if_pos rfl]
    refine structLoop_self_ok _ fs 0 _ rfl (fun p hp => ?_)
    have hs := List.sizeOf_lt_of_mem hp
    refine ih p hp f ?_
    obtain ⟨n, v⟩ := p
    simp at hs hfuel ⊢
    omega
  | ptrV p =>
    intro fuel hfuel
    obtain ⟨f, rfl⟩ : ∃ f, fuel = f + 1 := ⟨fuel - 1, by omega⟩
    show ({ resKindFalse with ok := deepEq (.ptrV p) (.ptrV p) } : Res).ok = true
    cases p with
    | none => simp [deepEq]
    | some q => simp [deepEq]

/-- C4 (counterexample): reflexivity fails on a supported value.  For the
map `{NaN: 1}` compared with itself at tolerance `0`, the engine matches
the NaN key via its own NaN-equal policy, but then `MapIndex` looks the
key up with Go key equality, for which NaN never equals itself, so both
value lookups yield the invalid value and the comparison fails. -/
theorem c4_counterexample :
    (0 : ℚ) ≤ 0 ∧
    (equal 30 (.mapV [(.floatV (.nan false), .intV 1)])
      (.mapV [(.floatV (.nan false), .intV 1)]) 0).ok = false := by
  refine ⟨le_refl 0, ?_⟩
  simp [equal, equalBody, equalMap, mapLoop, findKeyRes, mapIndexD, keyEq, equalFloat,
    F.goEq, F.isNaN, V0.isValid, V0.kindOf, List.find?, resZero]

/-- C4 (amended): `compare(x, x, t)` is `ok` for every `t >= 0` and every
valid function-free value `x` — including NaN leaves and pointers, which
are self-equal by address — provided every map key inside `x` is
Go-self-equal (no NaN inside a map key) and map keys are pairwise
distinct (`Reflexable x`). -/
theorem c4_amended (x : V0) (tol : ℚ) (fuel : ℕ) (hfuel : sizeOf x < fuel)
    (htol : 0 ≤ tol) (hx : Reflexable x) :
    (equal fuel x x tol).ok = true :=
  equal_self_ok tol x hx fuel hfuel

/-- C4 amended claim at a concrete slice containing a NaN leaf and a
pointer to a NaN (self-equal by address). -/
theorem c4_amended_witness :
    sizeOf (V0.sliceV [.floatV (.nan false),
      .ptrV (some (7, .floatV (.nan false)))]) < 100 ∧ (0 : ℚ) ≤ 1 ∧
    Reflexable (V0.sliceV [.floatV (.nan false),
      .ptrV (some (7, .floatV (.nan false)))]) ∧
    (equal 100 (V0.sliceV [.floatV (.nan false),
        .ptrV (some (7, .floatV (.nan false)))])
      (V0.sliceV [.floatV (.nan false),
        .ptrV (some (7, .floatV (.nan false)))]) 1).ok = true := by
  have hr : Reflexable (V0.sliceV [.floatV (.nan false),
      .ptrV (some (7, .floatV (.nan false)))]) := by
    refine .sliceV _ ?_
    intro v hv
    simp at hv
    rcases hv with rfl | rfl
    · exact .floatV _
    · exact .ptrV _
  have hs : sizeOf (V0.sliceV [.floatV (.nan false),
      .ptrV (some (7, .floatV (.nan false)))]) < 100 := by
    simp
  exact ⟨hs, by norm_num, hr, c4_amended _ 1 100 hs (by norm_num) hr⟩

/-- `findKeyRes` on a non-empty candidate list succeeds exactly when some
candidate key matches. -/
theorem findKeyRes_ok_iff (eq : V0 → V0 → Res) :
    ∀ (ks : List V0) (prev : Res) (ykey : V0), ks ≠ [] →
      ((findKeyRes eq prev ks ykey).ok = true ↔ ∃ k ∈ ks, (eq k ykey).ok = true) := by
  intro ks
  induction ks with
  | nil => intro prev ykey h; exact absurd rfl h
  | cons k ks ih =>
    intro prev ykey _
    by_cases hk : (eq k ykey).ok = true
    · have hstep : findKeyRes eq prev (k :: ks) ykey = eq k ykey := by
        simp only [findKeyRes, hk, reduceIte]
      rw [hstep]
      exact ⟨fun h => ⟨k, by simp, h⟩, fun _ => hk⟩
    · simp only [Bool.not_eq_true] at hk
      simp only [findKeyRes, hk, Bool.false_eq_true, reduceIte]
      cases ks with
      | nil =>
        simp only [findKeyRes]
        constructor
        · intro h; exact absurd h (by simp [hk])
        · intro ⟨k', hk', hok⟩
          simp at hk'
          subst hk'
          simp [hk] at hok
      | cons k2 ks2 =>
        rw [ih _ ykey (by simp)]
        constructor
        · intro ⟨k', hk', hok⟩; exact ⟨k', by simp [hk'], hok⟩
        · intro ⟨k', hk', hok⟩
          rcases List.mem_cons.1 hk' with rfl | hmem
          · simp [hk] at hok
          · exact ⟨k', hmem, hok⟩

/-- Whether an expected key passes in `mapLoop`: some key of `x` matches
it under the full comparison, and the two looked-up values compare
equal. -/
def keyPasses (eq : V0 → V0 → Res) (xp yp : List (V0 × V0)) (k : V0) : Prop :=
  (∃ k' ∈ xp.map Prod.fst, (eq k' k).ok = true) ∧
    (eq (mapIndexD xp k) (mapIndexD yp k)).ok = true

/-- `mapLoop` result when the first failure of the expected-key scan is a
missing key at relative index `j`. -/
theorem mapLoop_missing (eq : V0 → V0 → Res) (xp yp : List (V0 × V0))
    (hxk : xp.map Prod.fst ≠ []) :
    ∀ (j : ℕ) (qs : List (V0 × V0)) (i : ℕ) (prev : Res), prev.ok = true →
      j < qs.length →
      (∀ j' < j, keyPasses eq xp yp ((qs.map Prod.fst).getD j' .invalid)) →
      (∀ k ∈ xp.map Prod.fst,
        (eq k ((qs.map Prod.fst).getD j .invalid)).ok = false) →
      ((mapLoop eq xp yp qs i prev).ok = false ∧
       (mapLoop eq xp yp qs i prev).missingValue = true ∧
       (mapLoop eq xp yp qs i prev).position = i + j) := by
  intro j
  induction j with
  | zero =>
    intro qs i prev hprev hlen hpass hmiss
    cases qs with
    | nil => simp at hlen
    | cons q qs =>
      have hkey : (((q :: qs).map Prod.fst).getD 0 .invalid) = q.1 := by simp
      rw [hkey] at hmiss
      have hf : (findKeyRes eq prev (xp.map Prod.fst) q.1).ok = false := by
        rw [← Bool.not_eq_true]
        rw [findKeyRes_ok_iff eq _ prev q.1 hxk]
        rintro ⟨k, hk, hok⟩
        exact absurd hok (by simp [hmiss k hk])
      have hstep : mapLoop eq xp yp (q :: qs) i prev =
          { findKeyRes eq prev (xp.map Prod.fst) q.1 with
            position := i, missingValue := true } := by
        simp only [mapLoop, hf, Bool.false_eq_true, reduceIte]
      rw [hstep]
      exact ⟨hf, rfl, by simp⟩
  | succ j ih =>
    intro qs i prev hprev hlen hpass hmiss
    cases qs with
    | nil => simp at hlen
    | cons q qs =>
      have h0 := hpass 0 (by omega)
      simp only [List.map_cons, List.getD_cons_zero] at h0
      obtain ⟨hfound, hval⟩ := h0
      have hf : (findKeyRes eq prev (xp.map Prod.fst) q.1).ok = true :=
        (findKeyRes_ok_iff eq _ prev q.1 hxk).2 hfound
      simp only [mapLoop, hf, hval, reduceIte]
      have hrec := ih qs (i + 1) _ hval (by simp at hlen ⊢; omega)
        (fun j' hj' => by
          have h := hpass (j' + 1) (by omega)
          simpa using h)
        (by
          intro k hk
          have h := hmiss k hk
          simpa using h)
      refine ⟨hrec.1, hrec.2.1, ?_⟩
      rw [hrec.2.2]
      omega

/-- `mapLoop` result when the first failure is a value mismatch at
relative index `j`: the failing recursive result with `Position`
overwritten. -/
theorem mapLoop_valfail (eq : V0 → V0 → Res) (xp yp : List (V0 × V0))
    (hxk : xp.map Prod.fst ≠ []) :
    ∀ (j : ℕ) (qs : List (V0 × V0)) (i : ℕ) (prev : Res), prev.ok = true →
      j < qs.length →
      (∀ j' < j, keyPasses eq xp yp ((qs.map Prod.fst).getD j' .invalid)) →
      (∃ k ∈ xp.map Prod.fst,
        (eq k ((qs.map Prod.fst).getD j .invalid)).ok = true) →
      (eq (mapIndexD xp ((qs.map Prod.fst).getD j .invalid))
          (mapIndexD yp ((qs.map Prod.fst).getD j .invalid))).ok = false →
      mapLoop eq xp yp qs i prev =
        { eq (mapIndexD xp ((qs.map Prod.fst).getD j .invalid))
            (mapIndexD yp ((qs.map Prod.fst).getD j .invalid)) with
          position := i + j } := by
  intro j
  induction j with
  | zero =>
    intro qs i prev hprev hlen hpass hfound hval
    cases qs with
    | nil => simp at hlen
    | cons q qs =>
      simp only [List.map_cons, List.getD_cons_zero] at hfound hval ⊢
      have hf : (findKeyRes eq prev (xp.map Prod.fst) q.1).ok = true :=
        (findKeyRes_ok_iff eq _ prev q.1 hxk).2 hfound
      simp only [mapLoop, hf, hval, Bool.false_eq_true, reduceIte]
      simp
  | succ j ih =>
    intro qs i prev hprev hlen hpass hfound hval
    cases qs with
    | nil => simp at hlen
    | cons q qs =>
      have h0 := hpass 0 (by omega)
      simp only [List.map_cons, List.getD_cons_zero] at h0
      obtain ⟨hfound0, hval0⟩ := h0
      have hf : (findKeyRes eq prev (xp.map Prod.fst) q.1).ok = true :=
        (findKeyRes_ok_iff eq _ prev q.1 hxk).2 hfound0
      simp only [mapLoop, hf, hval0, reduceIte]
      simp only [List.map_cons, List.getD_cons_succ] at hfound hval
      have harith : i + (j + 1) = i + 1 + j := by omega
      rw [harith]
      exact ih qs (i + 1) _ hval0 (by simp at hlen ⊢; omega)
        (fun j' hj' => by
          have h := hpass (j' + 1) (by omega)
          simpa using h) hfound hval

/-- `mapLoop` succeeds exactly when every pending expected key passes. -/
theorem mapLoop_ok_iff (eq : V0 → V0 → Res) (xp yp : List (V0 × V0))
    (hxk : xp.map Prod.fst ≠ []) :
    ∀ (qs : List (V0 × V0)) (i : ℕ) (prev : Res), prev.ok = true →
      ((mapLoop eq xp yp qs i prev).ok = true ↔
        ∀ q ∈ qs, keyPasses eq xp yp q.1) := by
  intro qs
  induction qs with
  | nil => intro i prev hprev; simpa [mapLoop] using hprev
  | cons q qs ih =>
    intro i prev hprev
    by_cases hf : (findKeyRes eq prev (xp.map Prod.fst) q.1).ok = true
    · by_cases hv : (eq (mapIndexD xp q.1) (mapIndexD yp q.1)).ok = true
      · simp only [mapLoop, hf, hv, reduceIte]
        rw [ih (i + 1) _ hv]
        constructor
        · intro h q' hq'
          rcases List.mem_cons.1 hq' with rfl | hmem
          · exact ⟨(findKeyRes_ok_iff eq _ prev q'.1 hxk).1 hf, hv⟩
          · exact h q' hmem
        · intro h q' hq'
          exact h q' (by simp [hq'])
      · simp only [Bool.not_eq_true] at hv
        simp only [mapLoop, hf, hv, Bool.false_eq_true, reduceIte]
        constructor
        · intro h; exact absurd h (by simp [hv])
        · intro h
          exact absurd (h q (by simp)).2 (by simp [hv])
    · simp only [Bool.not_eq_true] at hf
      simp only [mapLoop, hf, Bool.false_eq_true, reduceIte]
      constructor
      · intro h; exact absurd h (by simp [hf])
      · intro h
        have := (h q (by simp)).1
        have := (findKeyRes_ok_iff eq _ prev q.1 hxk).2 this
        simp [hf] at this

/-- Size of a key of a map value. -/
theorem sizeOf_key_lt {xp : List (V0 × V0)} {k : V0}
    (hk : k ∈ xp.map Prod.fst) : sizeOf k < sizeOf xp := by
  obtain ⟨p, hp, rfl⟩ := List.mem_map.1 hk
  have h1 := List.sizeOf_lt_of_mem hp
  obtain ⟨a, b⟩ := p
  simp at h1 ⊢
  omega

/-- C5 support: `equal` on two maps when the first failure over
`expected`'s key list is a key with no engine match: `ok = false`,
`missingValue = true` and `position` is that key's index. -/
theorem equalMap_missing_key (xp yp : List (V0 × V0)) (tol : ℚ) (fuel i : ℕ)
    (hfuel : sizeOf (V0.mapV xp) < fuel) (hlen : xp.length = yp.length)
    (hi : i < yp.length)
    (hpass : ∀ j < i,
      (∃ k ∈ xp.map Prod.fst,
        (equal fuel k ((yp.map Prod.fst).getD j .invalid) tol).ok = true) ∧
      (equal fuel (mapIndexD xp ((yp.map Prod.fst).getD j .invalid))
        (mapIndexD yp ((yp.map Prod.fst).getD j .invalid)) tol).ok = true)
    (hmiss : ∀ k ∈ xp.map Prod.fst,
      (equal fuel k ((yp.map Prod.fst).getD i .invalid) tol).ok = false) :
    (equal fuel (.mapV xp) (.mapV yp) tol).ok = false ∧
    (equal fuel (.mapV xp) (.mapV yp) tol).missingValue = true ∧
    (equal fuel (.mapV xp) (.mapV yp) tol).position = i := by
  obtain ⟨f, rfl⟩ : ∃ f, fuel = f + 1 :=
    ⟨fuel - 1, by have := one_le_sizeOf_V0 (V0.mapV xp); omega⟩
  have hxp : sizeOf xp < f := by simp at hfuel; omega
  have hxne : xp ≠ [] := by
    intro h
    subst h
    simp at hlen
    omega
  have hxk : xp.map Prod.fst ≠ [] := by simpa using hxne
  have htr : ∀ k ∈ xp.map Prod.fst, ∀ b,
      equal f k b tol = equal (f + 1) k b tol := fun k hk b =>
    equal_irrel f (f + 1) k b tol (by have := sizeOf_key_lt hk; omega)
      (by have := sizeOf_key_lt hk; omega)
  have htrv : ∀ k b,
      equal f (mapIndexD xp k) b tol = equal (f + 1) (mapIndexD xp k) b tol :=
    fun k b =>
    equal_irrel f (f + 1) _ b tol
      (by have := sizeOf_mapIndexD_le xp k; omega)
      (by have := sizeOf_mapIndexD_le xp k; omega)
  rw [equal_mapV]
  unfold equalMap
  rw [if_pos hlen]
  have h := mapLoop_missing (fun u v => equal f u v tol) xp yp hxk i yp 0
    { resZero with ok := true } rfl (by simpa using hi)
    (fun j hj => by
      obtain ⟨⟨k, hk, hok⟩, hv⟩ := hpass j hj
      unfold keyPasses
      refine ⟨⟨k, hk, ?_⟩, ?_⟩
      · show (equal f k ((yp.map Prod.fst).getD j .invalid) tol).ok = true
        rw [htr k hk]
        exact hok
      · show (equal f (mapIndexD xp ((yp.map Prod.fst).getD j .invalid))
          (mapIndexD yp ((yp.map Prod.fst).getD j .invalid)) tol).ok = true
        rw [htrv]
        exact hv)
    (fun k hk => by
      show (equal f k ((yp.map Prod.fst).getD i .invalid) tol).ok = false
      rw [htr k hk]
      exact hmiss k hk)
  exact ⟨h.1, h.2.1, by rw [h.2.2]; omega⟩

/-- C5 support: `equal` on two maps when the first failure is a value
mismatch at index `i` of `expected`'s key list: the result is that
recursive comparison with `Position` overwritten to `i` (in particular
`missingValue` is not set — the key itself was matched, possibly only
within tolerance). -/
theorem equalMap_value_mismatch (xp yp : List (V0 × V0)) (tol : ℚ) (fuel i : ℕ)
    (hfuel : sizeOf (V0.mapV xp) < fuel) (hlen : xp.length = yp.length)
    (hi : i < yp.length)
    (hpass : ∀ j < i,
      (∃ k ∈ xp.map Prod.fst,
        (equal fuel k ((yp.map Prod.fst).getD j .invalid) tol).ok = true) ∧
      (equal fuel (mapIndexD xp ((yp.map Prod.fst).getD j .invalid))
        (mapIndexD yp ((yp.map Prod.fst).getD j .invalid)) tol).ok = true)
    (hfound : ∃ k ∈ xp.map Prod.fst,
      (equal fuel k ((yp.map Prod.fst).getD i .invalid) tol).ok = true)
    (hval : (equal fuel (mapIndexD xp ((yp.map Prod.fst).getD i .invalid))
      (mapIndexD yp ((yp.map Prod.fst).getD i .invalid)) tol).ok = false) :
    equal fuel (.mapV xp) (.mapV yp) tol =
      { equal fuel (mapIndexD xp ((yp.map Prod.fst).getD i .invalid))
          (mapIndexD yp ((yp.map Prod.fst).getD i .invalid)) tol with
        position := i } := by
  obtain ⟨f, rfl⟩ : ∃ f, fuel = f + 1 :=
    ⟨fuel - 1, by have := one_le_sizeOf_V0 (V0.mapV xp); omega⟩
  have hxp : sizeOf xp < f := by simp at hfuel; omega
  have hxne : xp ≠ [] := by
    intro h
    subst h
    simp at hlen
    omega
  have hxk : xp.map Prod.fst ≠ [] := by simpa using hxne
  have htr : ∀ k ∈ xp.map Prod.fst, ∀ b,
      equal f k b tol = equal (f + 1) k b tol := fun k hk b =>
    equal_irrel f (f + 1) k b tol (by have := sizeOf_key_lt hk; omega)
      (by have := sizeOf_key_lt hk; omega)
  have htrv : ∀ k b,
      equal f (mapIndexD xp k) b tol = equal (f + 1) (mapIndexD xp k) b tol :=
    fun k b =>
    equal_irrel f (f + 1) _ b tol
      (by have := sizeOf_mapIndexD_le xp k; omega)
      (by have := sizeOf_mapIndexD_le xp k; omega)
  rw [equal_mapV]
  unfold equalMap
  rw [if_pos hlen]
  have h := mapLoop_valfail (fun u v => equal f u v tol) xp yp hxk i yp 0
    { resZero with ok := true } rfl (by simpa using hi)
    (fun j hj => by
      obtain ⟨⟨k, hk, hok⟩, hv⟩ := hpass j hj
      unfold keyPasses
      refine ⟨⟨k, hk, ?_⟩, ?_⟩
      · show (equal f k ((yp.map Prod.fst).getD j .invalid) tol).ok = true
        rw [htr k hk]
        exact hok
      · show (equal f (mapIndexD xp ((yp.map Prod.fst).getD j .invalid))
          (mapIndexD yp ((yp.map Prod.fst).getD j .invalid)) tol).ok = true
        rw [htrv]
        exact hv)
    (by
      obtain ⟨k, hk, hok⟩ := hfound
      refine ⟨k, hk, ?_⟩
      show (equal f k ((yp.map Prod.fst).getD i .invalid) tol).ok = true
      rw [htr k hk]
      exact hok)
    (by
      show (equal f (mapIndexD xp ((yp.map Prod.fst).getD i .invalid))
        (mapIndexD yp ((yp.map Prod.fst).getD i .invalid)) tol).ok = false
      rw [htrv]
      exact hval)
  rw [h]
  show ({ equal f (mapIndexD xp ((yp.map Prod.fst).getD i .invalid))
      (mapIndexD yp ((yp.map Prod.fst).getD i .invalid)) tol with
    position := 0 + i } : Res) = _
  rw [htrv]
  simp

/-- C5 support: `ok` characterisation of the map comparison — success
means every key of `expected` is matched by some key of `actual` under
the full recursive comparison and the looked-up values compare equal;
both conditions are order-insensitive in `actual`'s key list. -/
theorem equalMap_ok_iff (xp yp : List (V0 × V0)) (tol : ℚ) (fuel : ℕ)
    (hfuel : sizeOf (V0.mapV xp) < fuel) (hlen : xp.length = yp.length) :
    ((equal fuel (.mapV xp) (.mapV yp) tol).ok = true ↔
      ∀ q ∈ yp,
        (∃ k ∈ xp.map Prod.fst, (equal fuel k q.1 tol).ok = true) ∧
        (equal fuel (mapIndexD xp q.1) (mapIndexD yp q.1) tol).ok = true) := by
  obtain ⟨f, rfl⟩ : ∃ f, fuel = f + 1 :=
    ⟨fuel - 1, by have := one_le_sizeOf_V0 (V0.mapV xp); omega⟩
  have hxp : sizeOf xp < f := by simp at hfuel; omega
  rw [equal_mapV]
  unfold equalMap
  rw [if_pos hlen]
  rcases eq_or_ne xp [] with rfl | hxne
  · have : yp = [] := by simpa using hlen.symm
    subst this
    simp [mapLoop]
  · have hxk : xp.map Prod.fst ≠ [] := by simpa using hxne
    have htr : ∀ k ∈ xp.map Prod.fst, ∀ b,
        equal f k b tol = equal (f + 1) k b tol := fun k hk b =>
      equal_irrel f (f + 1) k b tol (by have := sizeOf_key_lt hk; omega)
        (by have := sizeOf_key_lt hk; omega)
    have htrv : ∀ k b,
        equal f (mapIndexD xp k) b tol = equal (f + 1) (mapIndexD xp k) b tol :=
      fun k b =>
      equal_irrel f (f + 1) _ b tol
        (by have := sizeOf_mapIndexD_le xp k; omega)
        (by have := sizeOf_mapIndexD_le xp k; omega)
    rw [mapLoop_ok_iff (fun u v => equal f u v tol) xp yp hxk yp 0 _ rfl]
    refine forall_congr' fun q => ?_
    refine imp_congr_right fun _ => ?_
    unfold keyPasses
    refine and_congr ?_ ?_
    · refine exists_congr fun k => and_congr_right fun hk => ?_
      show (equal f k q.1 tol).ok = true ↔ _
      rw [htr k hk]
    · show (equal f (mapIndexD xp q.1) (mapIndexD yp q.1) tol).ok = true ↔ _
      rw [htrv]

/-- C5: map comparison matches each expected key against actual's key set
with the full recursive comparison, so the result is key-order
independent (first conjunct: `{a:1, b:2}` vs `{b:2, a:1}` at zero
tolerance); a key of `expected` with no match yields `ok = false`,
`missingValue = true` and `position` the key's index in expected's key
list (second conjunct); when a key is matched, the values found by map
lookup are compared recursively and a failure reports that recursive
result with `position` overwritten (third conjunct); success is exactly
per-key engine matching plus value equality for every expected key
(fourth conjunct). -/
theorem c5_map_matching :
    (∀ fuel : ℕ,
      sizeOf (V0.mapV [(.strV ("a"), .intV 1), (.strV ("b"), .intV 2)]) < fuel →
      (equal fuel (.mapV [(.strV ("a"), .intV 1), (.strV ("b"), .intV 2)])
        (.mapV [(.strV ("b"), .intV 2), (.strV ("a"), .intV 1)]) 0).ok = true) ∧
    (∀ (xp yp : List (V0 × V0)) (tol : ℚ) (fuel i : ℕ),
      sizeOf (V0.mapV xp) < fuel → xp.length = yp.length → i < yp.length →
      (∀ j < i,
        (∃ k ∈ xp.map Prod.fst,
          (equal fuel k ((yp.map Prod.fst).getD j .invalid) tol).ok = true) ∧
        (equal fuel (mapIndexD xp ((yp.map Prod.fst).getD j .invalid))
          (mapIndexD yp ((yp.map Prod.fst).getD j .invalid)) tol).ok = true) →
      (∀ k ∈ xp.map Prod.fst,
        (equal fuel k ((yp.map Prod.fst).getD i .invalid) tol).ok = false) →
      (equal fuel (.mapV xp) (.mapV yp) tol).ok = false ∧
      (equal fuel (.mapV xp) (.mapV yp) tol).missingValue = true ∧
      (equal fuel (.mapV xp) (.mapV yp) tol).position = i) ∧
    (∀ (xp yp : List (V0 × V0)) (tol : ℚ) (fuel i : ℕ),
      sizeOf (V0.mapV xp) < fuel → xp.length = yp.length → i < yp.length →
      (∀ j < i,
        (∃ k ∈ xp.map Prod.fst,
          (equal fuel k ((yp.map Prod.fst).getD j .invalid) tol).ok = true) ∧
        (equal fuel (mapIndexD xp ((yp.map Prod.fst).getD j .invalid))
          (mapIndexD yp ((yp.map Prod.fst).getD j .invalid)) tol).ok = true) →
      (∃ k ∈ xp.map Prod.fst,
        (equal fuel k ((yp.map Prod.fst).getD i .invalid) tol).ok = true) →
      (equal fuel (mapIndexD xp ((yp.map Prod.fst).getD i .invalid))
        (mapIndexD yp ((yp.map Prod.fst).getD i .invalid)) tol).ok = false →
      equal fuel (.mapV xp) (.mapV yp) tol =
        { equal fuel (mapIndexD xp ((yp.map Prod.fst).getD i .invalid))
            (mapIndexD yp ((yp.map Prod.fst).getD i .invalid)) tol with
          position := i }) ∧
    (∀ (xp yp : List (V0 × V0)) (tol : ℚ) (fuel : ℕ),
      sizeOf (V0.mapV xp) < fuel → xp.length = yp.length →
      ((equal fuel (.mapV xp) (.mapV yp) tol).ok = true ↔
        ∀ q ∈ yp,
          (∃ k ∈ xp.map Prod.fst, (equal fuel k q.1 tol).ok = true) ∧
          (equal fuel (mapIndexD xp q.1) (mapIndexD yp q.1) tol).ok = true)) := by
  refine ⟨?_, equalMap_missing_key, equalMap_value_mismatch, equalMap_ok_iff⟩
  intro fuel hfuel
  rw [equalMap_ok_iff _ _ 0 fuel hfuel (by simp)]
  obtain ⟨f, rfl⟩ : ∃ f, fuel = f + 1 :=
    ⟨fuel - 1, by
      have := one_le_sizeOf_V0
        (V0.mapV [(.strV ("a"), .intV 1), (.strV ("b"), .intV 2)])
      omega⟩
  intro q hq
  simp only [List.mem_cons, List.not_mem_nil, or_false] at hq
  rcases hq with rfl | rfl
  · refine ⟨⟨.strV ("b"), by simp, ?_⟩, ?_⟩
    · simp [equal, equalBody, V0.isValid, V0.kindOf, deepEq]
    · have hx : mapIndexD [(.strV ("a"), .intV 1), (.strV ("b"), .intV 2)]
          (.strV ("b")) = .intV 2 := by
        simp [mapIndexD, keyEq, List.find?]
      have hy : mapIndexD [(.strV ("b"), .intV 2), (.strV ("a"), .intV 1)]
          (.strV ("b")) = .intV 2 := by
        simp [mapIndexD, keyEq, List.find?]
      rw [hx, hy]
      show (equalFloat (F.ofInt 2) (F.ofInt 2) 0).ok = true
      exact equalFloat_self _ _
  · refine ⟨⟨.strV ("a"), by simp, ?_⟩, ?_⟩
    · simp [equal, equalBody, V0.isValid, V0.kindOf, deepEq]
    · have hx : mapIndexD [(.strV ("a"), .intV 1), (.strV ("b"), .intV 2)]
          (.strV ("a")) = .intV 1 := by
        simp [mapIndexD, keyEq, List.find?]
      have hy : mapIndexD [(.strV ("b"), .intV 2), (.strV ("a"), .intV 1)]
          (.strV ("a")) = .intV 1 := by
        simp [mapIndexD, keyEq, List.find?]
      rw [hx, hy]
      show (equalFloat (F.ofInt 1) (F.ofInt 1) 0).ok = true
      exact equalFloat_self _ _

/-- C5 map policy at the concrete order-independence example. -/
theorem c5_map_matching_witness :
    sizeOf (V0.mapV [(.strV ("a"), .intV 1), (.strV ("b"), .intV 2)]) < 500 ∧
    (equal 500 (.mapV [(.strV ("a"), .intV 1), (.strV ("b"), .intV 2)])
      (.mapV [(.strV ("b"), .intV 2), (.strV ("a"), .intV 1)]) 0).ok = true :=
  ⟨by decide, c5_map_matching.1 500 (by decide)⟩

/-- Go types as far as `testing/quick` argument generation is concerned. -/
inductive Ty where
  | tyBool | tyInt | tyFloat | tyComplex | tyString
  | tyChan (t : Ty)
  | tyFuncT
  | tySlice (t : Ty)
  | tyPtr (t : Ty)
  | tyMap (k v : Ty)
deriving DecidableEq

/-- `quick.Value` succeeds exactly on these types: primitives, and
slices/pointers/maps of generatable types; channels and functions cannot
be generated. -/
def generatable : Ty → Bool
  | .tyBool | .tyInt | .tyFloat | .tyComplex | .tyString => true
  | .tyChan _ => false
  | .tyFuncT => false
  | .tySlice t => generatable t
  | .tyPtr t => generatable t
  | .tyMap k v => generatable k && generatable v

/-- A function signature: declared input and output types. -/
structure FuncSig where
  ins : List Ty
  outs : List Ty
deriving DecidableEq

/-- A value together with Go function values: `funcV sig none` is a nil
function (as produced by `reflect.Zero` on a function type).  Function
bodies map argument lists to result lists; bodies consume and produce
function-free values (the model does not nest function values inside
composites or other functions). -/
inductive V1 where
  | base (v : V0)
  | funcV (sig : FuncSig) (body : Option (List V0 → List V0))

/-- Kind of a `V1` value. -/
def kind1 : V1 → Kind
  | .base v => v.kindOf
  | .funcV _ _ => .func

/-- Validity of a `V1` value. -/
def valid1 : V1 → Bool
  | .base v => v.isValid
  | .funcV _ _ => true

/-- `reflect.Zero` of the value's type: the zero of a function type is
the nil function of the same signature. -/
def zero1 : V1 → V1
  | .base v => .base v.zeroOf
  | .funcV s _ => .funcV s none

/-- The random source of `equalFunc`, made explicit: the value generated
at loop iteration `n` for argument position `i` of type `t`.  In Go this
stream is drawn from a `rand.Rand` seeded with `time.Now().Unix()`. -/
def Gen : Type := ℕ → ℕ → Ty → V0

/-- `mockArgs` (equal.go): generate one argument per declared input; an
input type `quick.Value` cannot handle makes the whole generation fail
with an error. -/
def mockArgs (sig : FuncSig) (gen : Gen) (n : ℕ) : Option (List V0) :=
  if sig.ins.all generatable then
    some (sig.ins.enum.map fun p => gen n p.1 p.2)
  else none

/-- Elementwise `reflect.DeepEqual` on two output lists. -/
def deepEqList : List V0 → List V0 → Bool
  | [], [] => true
  | a :: as, b :: bs => deepEq a b && deepEqList as bs
  | _, _ => false

/-- `quick.CheckEqual` as used by `equalFunc` when `tol == 0`:
a `SetupError` (different function types, or non-generatable argument
types) surfaces as a non-nil error, hence `Ok = false`; otherwise both
functions are called on generated argument tuples for the default 100
iterations and outputs are compared with `reflect.DeepEqual`.  Calling a
nil function panics (`none`). -/
def checkEqual (s1 : FuncSig) (b1 : Option (List V0 → List V0))
    (s2 : FuncSig) (b2 : Option (List V0 → List V0)) (gen : Gen) : Option Res :=
  if s1 ≠ s2 then some resZero
  else if !(s1.ins.all generatable) then some resZero
  else
    match b1, b2 with
    | some f, some g =>
      some { resZero with
        ok := (List.range 100).all fun n =>
          deepEqList (f (s1.ins.enum.map fun p => gen n p.1 p.2))
            (g (s1.ins.enum.map fun p => gen n p.1 p.2)) }
    | _, _ => none

/-- The inner output loop of `equalFunc`: compare corresponding outputs
with `equal`, stopping at the first failure (no `Position` is set). -/
def efInner (fuel : ℕ) (tol : ℚ) : List V0 → List V0 → Res → Res
  | [], _, prev => prev
  | x :: xs, ys, prev =>
    let r := equal fuel x (ys.headD .invalid) tol
    if r.ok then efInner fuel tol xs ys.tail r else r

/-- The 1000-trial loop of `equalFunc` (tolerance nonzero): each trial
generates arguments from `x`'s signature (an error is recorded in the
threaded result as `Ok = false` and returned — an ordinary comparison
failure), calls both functions and compares the outputs.  Calling a nil
function, or calling `y` when its input types differ from the generated
arguments, panics (`none`). -/
def efLoop (fuel : ℕ) (s1 s2 : FuncSig) (b1 b2 : Option (List V0 → List V0))
    (tol : ℚ) (gen : Gen) : ℕ → ℕ → Res → Option Res
  | 0, _, prev => some prev
  | k + 1, n, prev =>
    match mockArgs s1 gen n with
    | none => some { prev with ok := false }
    | some args =>
      match b1, b2 with
      | some f, some g =>
        if s1.ins ≠ s2.ins then none
        else
          let r := efInner fuel tol (f args) (g args) { prev with ok := true }
          if r.ok then efLoop fuel s1 s2 b1 b2 tol gen k (n + 1) r else some r
      | _, _ => none

/-- `equalFunc` (equal.go): `quick.CheckEqual` at zero tolerance,
otherwise the 1000-trial random comparison. -/
def equalFunc (fuel : ℕ) (s1 : FuncSig) (b1 : Option (List V0 → List V0))
    (s2 : FuncSig) (b2 : Option (List V0 → List V0)) (tol : ℚ) (gen : Gen) :
    Option Res :=
  if tol = 0 then checkEqual s1 b1 s2 b2 gen
  else efLoop fuel s1 s2 b1 b2 tol gen 1000 0 resZero

/-- `equal` over values that may be functions: the validity substitution,
kind check and dispatch of equal.go lifted to `V1`.  `none` models a Go
panic (calling a nil or ill-typed function); every function-free
comparison is `some`. -/
def equalTop (fuel : ℕ) (x y : V1) (tol : ℚ) (gen : Gen) : Option Res :=
  match x, y with
  | .base a, .base b => some (equal fuel a b tol)
  | .funcV s b1, .funcV s' b2 => equalFunc fuel s b1 s' b2 tol gen
  | .funcV s b1, .base v =>
    -- an invalid expected value becomes the zero (nil) function of the
    -- actual's type; a valid non-function expected is a kind mismatch
    if v.isValid then some resKindFalse else equalFunc fuel s b1 s none tol gen
  | .base v, .funcV _ _ =>
    if v.isValid then some resKindFalse else some resZero

/-- The function(s) under test as the dispatcher sees them: declared
arity and a callable body over `V1` values. -/
structure TestFn where
  nIn : ℕ
  nOut : ℕ
  body : List V1 → List V1

/-- Configuration errors of the dispatcher (`t.Fatal` paths of test.go). -/
inductive CfgErr where
  | noCases | emptyCase | labelNotString | funcCount | arity
deriving DecidableEq

/-- `parseCases` (cases.go): the case table must be a non-empty slice of
structs with at least one field, the first of string kind; returns the
number of cases and the number of fields.  (The "not a slice"/"element
not a struct" errors are unrepresentable in the model's input type.) -/
def parseCases (cases : List (List V1)) : Except CfgErr (ℕ × ℕ) :=
  if cases.isEmpty then .error .noCases
  else
    let nf := (cases.headD []).length
    if nf = 0 then .error .emptyCase
    else if kind1 ((cases.headD []).headD (.base .invalid)) ≠ Kind.str then
      .error .labelNotString
    else .ok (cases.length, nf)

/-- `parseFuncs` (func.go): one or two functions; with one function the
second slot is the nil function (irrelevant here since the model's input
type only carries genuine functions, so the kind check is vacuous). -/
def parseFuncs (fs : List TestFn) : Except CfgErr (TestFn × Option TestFn) :=
  if fs.length < 1 || fs.length > 2 then .error .funcCount
  else .ok (fs.headD ⟨0, 0, fun _ => []⟩, fs[1]?)

/-- `indirect` (cases.go): dereference pointer-like wrappers; `Elem` of a
nil pointer is the invalid value. -/
def indirect1 : V1 → V1
  | .base (.ptrV (some p)) => .base p.2
  | .base (.ptrV none) => .base .invalid
  | v => v

/-- `name` (cases.go): the first field of the case as a string. -/
def nameOf (c : List V1) : String :=
  match c.headD (.base .invalid) with
  | .base (.strV s) => s
  | _ => ""

/-- `sliceFrom` (cases.go): fields `start` to `start + n`, indirected. -/
def sliceFrom (c : List V1) (start n : ℕ) : List V1 :=
  (List.range n).map fun i => indirect1 (c.getD (start + i) (.base .invalid))

/-- The per-output loop of `subtest`: run the engine on each output
index, collecting the failing indices with their results; a panic inside
the engine aborts the whole sub-test (`none`). -/
def subtestLoop (fuel : ℕ) (tol : ℚ) (gen : Gen) (res out : List V1) :
    ℕ → ℕ → Option (List (ℕ × Res))
  | 0, _ => some []
  | k + 1, i =>
    match equalTop fuel (res.getD i (.base .invalid)) (out.getD i (.base .invalid))
        tol gen with
    | none => none
    | some r =>
      match subtestLoop fuel tol gen res out k (i + 1) with
      | none => none
      | some rest => some (if r.ok then rest else (i, r) :: rest)

/-- `subtest` (test.go): extract the first `nIn` post-label fields as the
input tuple; obtain expected outputs by reading the remaining fields
(one-function mode) or by calling the second function on the same input
tuple (two-function mode); call the primary function; compare the
outputs pairwise. -/
def subtest (fuel : ℕ) (c : List V1) (f1 : TestFn) (f2 : Option TestFn)
    (nIn nOut : ℕ) (tol : ℚ) (gen : Gen) : Option (List (ℕ × Res)) :=
  let inp := sliceFrom c 1 nIn
  let out := match f2 with
    | none => sliceFrom c (1 + nIn) nOut
    | some f2 => f2.body inp
  let res := f1.body inp
  subtestLoop fuel tol gen res out nOut 0

/-- Outcome of a dispatch: a fatal configuration error detected before
any case executes, or one report per case (label and the list of failing
output indices with their comparison results). -/
inductive TestOutcome where
  | fatal (e : CfgErr)
  | ran (reports : List (String × Option (List (ℕ × Res))))

/-- `Test` (test.go): validate the case table and functions, check the
attribute-count contract (with one function, exactly `nIn + nOut` fields
after the label; with two, `nIn + nOut` or just `nIn`), then run one
sub-test per case in table order. -/
def Test (fuel : ℕ) (tol : ℚ) (cases : List (List V1)) (fs : List TestFn)
    (gen : Gen) : TestOutcome :=
  match parseCases cases with
  | .error e => .fatal e
  | .ok (_, nfc) =>
    match parseFuncs fs with
    | .error e => .fatal e
    | .ok (f1, f2) =>
      let nIn := f1.nIn
      let nOut := f1.nOut
      let arityOk : Bool := match f2 with
        | none => nfc - 1 == nIn + nOut
        | some _ => nfc - 1 == nIn + nOut || nfc - 1 == nIn
      if arityOk then
        .ran (cases.map fun c => (nameOf c, subtest fuel c f1 f2 nIn nOut tol gen))
      else .fatal .arity

/-- `equal` on valid values of different kinds returns the kind-mismatch
failure record. -/
theorem equal_kind_mismatch (f : ℕ) (a b : V0) (tol : ℚ)
    (ha : a.isValid = true) (hb : b.isValid = true)
    (hne : a.kindOf ≠ b.kindOf) :
    equal (f + 1) a b tol = resKindFalse := by
  have h1 : (!b.isValid && a.isValid) = false := by rw [hb]; simp
  have h2 : (!a.isValid) = false := by rw [ha]; simp
  simp only [equal, equalBody, h1, h2, Bool.false_eq_true, reduceIte, if_pos hne]

/-- C6: a shape mismatch between two valid values — including function
values against non-function values — is an ordinary comparison failure:
the engine returns (it does not panic, i.e. the result is `some`) the
record with `ok = false` and zeroed error fields. -/
theorem c6_shape_mismatch (x y : V1) (tol : ℚ) (gen : Gen) (fuel : ℕ)
    (hfuel : 0 < fuel) (hx : valid1 x = true) (hy : valid1 y = true)
    (hne : kind1 x ≠ kind1 y) :
    equalTop fuel x y tol gen = some resKindFalse ∧ resKindFalse.ok = false := by
  obtain ⟨f, rfl⟩ : ∃ f, fuel = f + 1 := ⟨fuel - 1, by omega⟩
  refine ⟨?_, rfl⟩
  cases x with
  | base a =>
    cases y with
    | base b =>
      simp only [equalTop]
      rw [equal_kind_mismatch f a b tol hx hy hne]
    | funcV s b2 =>
      simp only [equalTop]
      rw [if_pos (show a.isValid = true from hx)]
  | funcV s b1 =>
    cases y with
    | base b =>
      simp only [equalTop]
      rw [if_pos (show b.isValid = true from hy)]
    | funcV s' b2 => exact absurd rfl hne

/-- C6 at a slice compared against a struct. -/
theorem c6_shape_mismatch_witness :
    equalTop 5 (.base (.sliceV [])) (.base (.structV [])) 0
        (fun _ _ _ => .invalid) = some resKindFalse ∧
      resKindFalse.ok = false :=
  c6_shape_mismatch (.base (.sliceV [])) (.base (.structV [])) 0
    (fun _ _ _ => .invalid) 5 (by norm_num) rfl rfl (by simp [kind1, V0.kindOf])

/-- `zeroOf` preserves validity. -/
theorem zeroOf_isValid (a : V0) (ha : a.isValid = true) :
    (V0.zeroOf a).isValid = true := by
  cases a <;> simp_all [V0.zeroOf, V0.isValid]

/-- Substituting the zero value for an invalid expected value: one step
of `equal` with an invalid `y` equals one step with `y = zeroOf x`. -/
theorem equal_zero_subst (fuel : ℕ) (a : V0) (tol : ℚ) (ha : a.isValid = true) :
    equal fuel a .invalid tol = equal fuel a a.zeroOf tol := by
  cases fuel with
  | zero => rfl
  | succ f =>
    have hz := zeroOf_isValid a ha
    have h1 : (!(V0.invalid.isValid) && a.isValid) = true := by
      rw [ha]; simp [V0.isValid]
    have h2 : (!(V0.zeroOf a).isValid && a.isValid) = false := by rw [hz]; simp
    simp only [equal, equalBody, h1, h2, Bool.false_eq_true, reduceIte]

/-- C10: a nil (invalid) expected value is replaced by the zero value of
the actual's type and the comparison proceeds against it — for function
actuals the zero is the nil function of the same signature (first
conjunct); a typed-nil pointer actual (e.g. a nil error) compares equal
to a nil expected (second conjunct); an invalid actual fails with the
zero result (third conjunct). -/
theorem c10_invalid_expected :
    (∀ (x : V1) (tol : ℚ) (gen : Gen) (fuel : ℕ), valid1 x = true →
      equalTop fuel x (.base .invalid) tol gen = equalTop fuel x (zero1 x) tol gen) ∧
    (∀ fuel : ℕ, 0 < fuel → (equal fuel (.ptrV none) .invalid 0).ok = true) ∧
    (∀ (y : V1) (tol : ℚ) (gen : Gen) (fuel : ℕ),
      equalTop fuel (.base .invalid) y tol gen = some resZero ∧
        resZero.ok = false) := by
  refine ⟨?_, ?_, ?_⟩
  · intro x tol gen fuel hx
    cases x with
    | base a =>
      simp only [equalTop, zero1]
      rw [equal_zero_subst fuel a tol hx]
    | funcV s b => rfl
  · intro fuel hfuel
    obtain ⟨f, rfl⟩ : ∃ f, fuel = f + 1 := ⟨fuel - 1, by omega⟩
    simp [equal, equalBody, V0.zeroOf, V0.isValid, V0.kindOf, deepEq]
  · intro y tol gen fuel
    refine ⟨?_, rfl⟩
    cases y with
    | base b =>
      cases fuel with
      | zero => rfl
      | succ f =>
        simp only [equalTop]
        have h2 : (!(V0.invalid.isValid)) = true := by simp [V0.isValid]
        simp only [equal, equalBody, h2, reduceIte]
    | funcV s b => simp [equalTop, V0.isValid]

/-- C10 at a nil pointer actual and tolerance `2`. -/
theorem c10_invalid_expected_witness :
    equalTop 3 (.base (.ptrV none)) (.base .invalid) 2 (fun _ _ _ => .invalid) =
      equalTop 3 (.base (.ptrV none)) (zero1 (.base (.ptrV none))) 2
        (fun _ _ _ => .invalid) := by
  exact c10_invalid_expected.1 (.base (.ptrV none)) 2 (fun _ _ _ => .invalid) 3 rfl

/-- C7 (counterexample): a non-generatable random argument is NOT a
configuration error detected before cases run.  With two functions whose
output is a function taking a channel argument, validation passes, the
sub-test executes, and the non-generatable argument surfaces as an
ordinary per-case comparison failure (`Ok = false` at output index 0) —
not as a fatal pre-case error. -/
theorem c7_counterexample :
    Test 10 1 [[.base (.strV ("L"))]]
        [⟨0, 1, fun _ => [.funcV ⟨[.tyChan .tyInt], []⟩ (some fun _ => [])]⟩,
         ⟨0, 1, fun _ => [.funcV ⟨[.tyChan .tyInt], []⟩ (some fun _ => [])]⟩]
        (fun _ _ _ => .invalid) =
      .ran [("L", some [(0, resZero)])] ∧
    generatable (.tyChan .tyInt) = false ∧
    (∀ e : CfgErr,
      Test 10 1 [[.base (.strV ("L"))]]
          [⟨0, 1, fun _ => [.funcV ⟨[.tyChan .tyInt], []⟩ (some fun _ => [])]⟩,
           ⟨0, 1, fun _ => [.funcV ⟨[.tyChan .tyInt], []⟩ (some fun _ => [])]⟩]
          (fun _ _ _ => .invalid) ≠ .fatal e) := by
  refine ⟨rfl, rfl, ?_⟩
  intro e h
  rw [show Test 10 1 [[.base (.strV ("L"))]]
      [⟨0, 1, fun _ => [.funcV ⟨[.tyChan .tyInt], []⟩ (some fun _ => [])]⟩,
       ⟨0, 1, fun _ => [.funcV ⟨[.tyChan .tyInt], []⟩ (some fun _ => [])]⟩]
      (fun _ _ _ => .invalid) = .ran [("L", some [(0, resZero)])] from rfl] at h
  exact TestOutcome.noConfusion h

/-- C7 (amended): when some declared input type of the actual function
cannot be generated, `mockArgs` propagates an error and `equalFunc`
(at nonzero tolerance) converts it at the first trial — before calling
either function — into the ordinary comparison-failure result
(`Ok = false`), rather than a configuration error reported before cases
execute. -/
theorem c7_amended (fuel : ℕ) (s1 s2 : FuncSig)
    (b1 b2 : Option (List V0 → List V0)) (tol : ℚ) (gen : Gen)
    (htol : tol ≠ 0) (h : ∃ t ∈ s1.ins, generatable t = false) :
    equalFunc fuel s1 b1 s2 b2 tol gen = some resZero ∧
      resZero.ok = false := by
  refine ⟨?_, rfl⟩
  have hall : s1.ins.all generatable = false := by
    obtain ⟨t, ht, hg⟩ := h
    exact List.all_eq_false.2 ⟨t, ht, by simp [hg]⟩
  have hmock : mockArgs s1 gen 0 = none := by
    simp [mockArgs, hall]
  rw [equalFunc, if_neg htol, show (1000 : ℕ) = 999 + 1 from rfl]
  simp only [efLoop, hmock]
  rfl

/-- C7 amended claim for a function with a channel input at tolerance 1. -/
theorem c7_amended_witness :
    (1 : ℚ) ≠ 0 ∧
    (∃ t ∈ [Ty.tyChan .tyInt], generatable t = false) ∧
    (equalFunc 10 ⟨[.tyChan .tyInt], []⟩ (some fun _ => [])
        ⟨[.tyChan .tyInt], []⟩ (some fun _ => []) 1
        (fun _ _ _ => .invalid) = some resZero ∧
      resZero.ok = false) :=
  ⟨by norm_num, ⟨.tyChan .tyInt, by simp, rfl⟩,
   c7_amended 10 ⟨[.tyChan .tyInt], []⟩ ⟨[.tyChan .tyInt], []⟩
     (some fun _ => []) (some fun _ => []) 1 (fun _ _ _ => .invalid)
     (by norm_num) ⟨.tyChan .tyInt, by simp, rfl⟩⟩

/-- One trial of the `equalFunc` loop in which generation succeeds and
the output comparison fails: the loop stops and returns that result. -/
theorem efLoop_one_shot (fuel : ℕ) (s : FuncSig) (f g : List V0 → List V0)
    (tol : ℚ) (gen : Gen) (k n : ℕ) (prev : Res)
    (hgen : s.ins.all generatable = true)
    (hfail : (efInner fuel tol (f (s.ins.enum.map fun p => gen n p.1 p.2))
        (g (s.ins.enum.map fun p => gen n p.1 p.2)) { prev with ok := true }).ok
      = false) :
    efLoop fuel s s (some f) (some g) tol gen (k + 1) n prev =
      some (efInner fuel tol (f (s.ins.enum.map fun p => gen n p.1 p.2))
        (g (s.ins.enum.map fun p => gen n p.1 p.2)) { prev with ok := true }) := by
  simp only [efLoop, mockArgs, hgen, reduceIte]
  rw [if_neg (fun hc => hc rfl)]
  simp only [hfail, Bool.false_eq_true, reduceIte]

/-- A value that carries no function. -/
def isBase : V1 → Bool
  | .base _ => true
  | .funcV _ _ => false

/-- C9 counterexample: the same pair of functions compared at the same
nonzero tolerance under two different random streams (two different
seeds of the time-seeded generator of equal.go line 300) yields two
different results, so compare is not a function of (actual, expected,
tolerance) alone. -/
theorem c9_counterexample :
    equalTop 10
      (.funcV ⟨[.tyFloat], [.tyFloat]⟩ (some fun args => [args.headD .invalid]))
      (.funcV ⟨[.tyFloat], [.tyFloat]⟩ (some fun _ => [V0.floatV (.fin false 1)]))
      (1/2) (fun _ _ _ => V0.floatV (.fin false 0)) ≠
    equalTop 10
      (.funcV ⟨[.tyFloat], [.tyFloat]⟩ (some fun args => [args.headD .invalid]))
      (.funcV ⟨[.tyFloat], [.tyFloat]⟩ (some fun _ => [V0.floatV (.fin false 1)]))
      (1/2) (fun _ _ _ => V0.floatV (.fin false 3)) := by
  have h1 :
      efInner 10 (1/2)
        ((fun args => [args.headD .invalid])
          (([Ty.tyFloat].enum).map fun p =>
            (fun _ _ _ => V0.floatV (.fin false 0)) 0 p.1 p.2))
        ((fun _ => [V0.floatV (.fin false 1)])
          (([Ty.tyFloat].enum).map fun p =>
            (fun _ _ _ => V0.floatV (.fin false 0)) 0 p.1 p.2))
        { resZero with ok := true } =
      { ok := false, numerical := true, relativeError := .floatV (.fin true 1),
        absoluteError := .floatV (.fin true 1), position := 0,
        lengthMismatch := false, missingValue := false } := by
    norm_num [efInner, List.enum, equal, equalBody, equalFloat, F.sub, F.div, F.goEq,
      F.val, F.isNaN, F.isInf, F.isZero, F.goAbs, F.goLe, F.ofQ, V0.isValid, V0.kindOf,
      resZero, abs_of_pos, abs_of_nonpos]
  have h2 :
      efInner 10 (1/2)
        ((fun args => [args.headD .invalid])
          (([Ty.tyFloat].enum).map fun p =>
            (fun _ _ _ => V0.floatV (.fin false 3)) 0 p.1 p.2))
        ((fun _ => [V0.floatV (.fin false 1)])
          (([Ty.tyFloat].enum).map fun p =>
            (fun _ _ _ => V0.floatV (.fin false 3)) 0 p.1 p.2))
        { resZero with ok := true } =
      { ok := false, numerical := true, relativeError := .floatV (.fin false 2),
        absoluteError := .floatV (.fin false 2), position := 0,
        lengthMismatch := false, missingValue := false } := by
    norm_num [efInner, List.enum, equal, equalBody, equalFloat, F.sub, F.div, F.goEq,
      F.val, F.isNaN, F.isInf, F.isZero, F.goAbs, F.goLe, F.ofQ, V0.isValid, V0.kindOf,
      resZero, abs_of_pos, abs_of_nonpos]
  show equalFunc 10 ⟨[.tyFloat], [.tyFloat]⟩ _ ⟨[.tyFloat], [.tyFloat]⟩ _ (1/2) _ ≠
    equalFunc 10 ⟨[.tyFloat], [.tyFloat]⟩ _ ⟨[.tyFloat], [.tyFloat]⟩ _ (1/2) _
  rw [equalFunc, equalFunc, if_neg (show ¬((1/2 : ℚ) = 0) from by norm_num),
    if_neg (show ¬((1/2 : ℚ) = 0) from by norm_num),
    show (1000 : ℕ) = 999 + 1 from rfl,
    efLoop_one_shot 10 ⟨[.tyFloat], [.tyFloat]⟩ _ _ (1/2)
      (fun _ _ _ => V0.floatV (.fin false 0)) 999 0 resZero rfl (by rw [h1]),
    efLoop_one_shot 10 ⟨[.tyFloat], [.tyFloat]⟩ _ _ (1/2)
      (fun _ _ _ => V0.floatV (.fin false 3)) 999 0 resZero rfl (by rw [h2]),
    h1, h2]
  simp

/-- C9 amended: compare is deterministic given its random stream, and
for function-free actual values the result does not depend on the
stream at all; only function comparisons consult it. -/
theorem c9_amended (fuel : ℕ) (x y : V1) (tol : ℚ) (g1 g2 : Gen)
    (hx : isBase x = true) :
    equalTop fuel x y tol g1 = equalTop fuel x y tol g2 := by
  cases x with
  | base a =>
    cases y with
    | base b => rfl
    | funcV s b2 => rfl
  | funcV s b1 => simp [isBase] at hx

/-- C9 amended at a concrete function-free pair under two different
random streams. -/
theorem c9_amended_witness :
    isBase (.base (V0.intV 5)) = true ∧
    equalTop 3 (.base (V0.intV 5)) (.base (V0.intV 5)) 0 (fun _ _ _ => .invalid) =
      equalTop 3 (.base (V0.intV 5)) (.base (V0.intV 5)) 0
        (fun _ _ _ => V0.boolV true) :=
  ⟨rfl, c9_amended 3 (.base (V0.intV 5)) (.base (V0.intV 5)) 0
    (fun _ _ _ => .invalid) (fun _ _ _ => V0.boolV true) rfl⟩

/-- Extracting the inputs of a case only reads fields below `1 + n`. -/
theorem sliceFrom_take (c : List V1) (n : ℕ) :
    sliceFrom (c.take (1 + n)) 1 n = sliceFrom c 1 n := by
  unfold sliceFrom
  apply List.map_congr_left
  intro i hi
  have hi' : i < n := List.mem_range.mp hi
  have hgd : (c.take (1 + n)).getD (1 + i) (.base .invalid) =
      c.getD (1 + i) (.base .invalid) := by
    rw [List.getD_eq_getElem?_getD, List.getD_eq_getElem?_getD,
      List.getElem?_take_of_lt (by omega)]
  rw [hgd]

/-- C8: in two-function mode the expected outputs of a case are obtained
by calling the second function on the case's input tuple: the sub-test
equals the pairwise comparison of `f1`'s and `f2`'s outputs on that
tuple, its result is unchanged when every field beyond the label and the
`nIn` inputs is dropped (output attributes are never read), and the
dispatcher accepts a case width of `nIn + nOut` or `nIn` fields after
the label, rejecting every other width as a fatal arity error. -/
theorem c8_two_function_mode (fuel : ℕ) (tol : ℚ) (gen : Gen)
    (cases : List (List V1)) (f1 f2 : TestFn) (c : List V1)
    (hne : cases ≠ [])
    (hnf : 0 < (cases.headD []).length)
    (hlabel : kind1 ((cases.headD []).headD (.base .invalid)) = Kind.str) :
    (subtest fuel c f1 (some f2) f1.nIn f1.nOut tol gen =
      subtestLoop fuel tol gen (f1.body (sliceFrom c 1 f1.nIn))
        (f2.body (sliceFrom c 1 f1.nIn)) f1.nOut 0) ∧
    (subtest fuel (c.take (1 + f1.nIn)) f1 (some f2) f1.nIn f1.nOut tol gen =
      subtest fuel c f1 (some f2) f1.nIn f1.nOut tol gen) ∧
    (Test fuel tol cases [f1, f2] gen =
      if (cases.headD []).length - 1 = f1.nIn + f1.nOut ∨
          (cases.headD []).length - 1 = f1.nIn then
        .ran (cases.map fun c =>
          (nameOf c, subtest fuel c f1 (some f2) f1.nIn f1.nOut tol gen))
      else .fatal .arity) := by
  refine ⟨rfl, ?_, ?_⟩
  · simp only [subtest, sliceFrom_take]
  · simp only [Test, parseCases, parseFuncs]
    rw [if_neg (by simpa using hne), if_neg (by omega),
      if_neg (not_ne_iff.mpr hlabel)]
    simp only [List.length_cons, List.length_nil]
    norm_num

/-- C8 at a concrete one-case table with two identity functions. -/
theorem c8_two_function_mode_witness :
    ([[V1.base (.strV ("x")), V1.base (.intV 4)]] : List (List V1)) ≠ [] ∧
    0 < ([[V1.base (.strV ("x")), V1.base (.intV 4)]].headD []).length ∧
    kind1 (([[V1.base (.strV ("x")), V1.base (.intV 4)]].headD []).headD
      (.base .invalid)) = Kind.str ∧
    ((subtest 3 [V1.base (.strV ("x")), V1.base (.intV 4)]
        ⟨1, 1, fun a => a⟩ (some ⟨1, 1, fun a => a⟩) 1 1 0
        (fun _ _ _ => .invalid) =
      subtestLoop 3 0 (fun _ _ _ => .invalid)
        ((fun a => a) (sliceFrom [V1.base (.strV ("x")), V1.base (.intV 4)] 1 1))
        ((fun a => a) (sliceFrom [V1.base (.strV ("x")), V1.base (.intV 4)] 1 1))
        1 0) ∧
    (subtest 3 ([V1.base (.strV ("x")), V1.base (.intV 4)].take (1 + 1))
        ⟨1, 1, fun a => a⟩ (some ⟨1, 1, fun a => a⟩) 1 1 0
        (fun _ _ _ => .invalid) =
      subtest 3 [V1.base (.strV ("x")), V1.base (.intV 4)]
        ⟨1, 1, fun a => a⟩ (some ⟨1, 1, fun a => a⟩) 1 1 0
        (fun _ _ _ => .invalid)) ∧
    (Test 3 0 [[V1.base (.strV ("x")), V1.base (.intV 4)]]
        [⟨1, 1, fun a => a⟩, ⟨1, 1, fun a => a⟩] (fun _ _ _ => .invalid) =
      if ([[V1.base (.strV ("x")), V1.base (.intV 4)]].headD []).length - 1
            = 1 + 1 ∨
          ([[V1.base (.strV ("x")), V1.base (.intV 4)]].headD []).length - 1
            = 1 then
        .ran ([[V1.base (.strV ("x")), V1.base (.intV 4)]].map fun c =>
          (nameOf c, subtest 3 c ⟨1, 1, fun a => a⟩ (some ⟨1, 1, fun a => a⟩)
            1 1 0 (fun _ _ _ => .invalid)))
      else .fatal .arity)) :=
  ⟨by simp, by simp, rfl,
   c8_two_function_mode 3 0 (fun _ _ _ => .invalid)
     [[V1.base (.strV ("x")), V1.base (.intV 4)]]
     ⟨1, 1, fun a => a⟩ ⟨1, 1, fun a => a⟩
     [V1.base (.strV ("x")), V1.base (.intV 4)]
     (by simp) (by simp) rfl⟩

/-- Floats with an exact real value, for the tolerance-coercion layer:
`cmplx.Abs` of a finite complex value is an exact square root, which
leaves the rationals.  The sign of a real zero is not represented; this
is harmless here because every coerced tolerance is non-negative. -/
inductive FR where
  | nan
  | inf (sign : Bool)
  | fin (x : ℝ)

/-- The real reading of an engine float. -/
noncomputable def F.toFR : F → FR
  | .nan _ => .nan
  | .inf s => .inf s
  | .fin s m => .fin (if s then -(m : ℝ) else (m : ℝ))

/-- `math.Abs` on real-valued floats. -/
noncomputable def goAbsR : FR → FR
  | .nan => .nan
  | .inf _ => .inf false
  | .fin x => .fin |x|

/-- `math.Hypot`, which implements `cmplx.Abs`: an infinite operand
dominates, then NaN propagates, and the finite case is the exact
Euclidean norm. -/
noncomputable def hypotR : FR → FR → FR
  | .inf _, _ => .inf false
  | _, .inf _ => .inf false
  | .nan, _ => .nan
  | _, .nan => .nan
  | .fin p, .fin q => .fin (Real.sqrt (p ^ 2 + q ^ 2))

/-- The final NaN check of `validateTolerance`: a NaN tolerance becomes
`0`; everything else (including `+Inf`) passes through. -/
noncomputable def nanZeroR : FR → FR
  | .nan => .fin 0
  | t => t

/-- `validateTolerance` (equal.go): a float or integer tolerance is
mapped to its absolute value, a complex one to its modulus, every other
kind leaves the initial `0`, and a NaN result is zeroed at the end. -/
noncomputable def validateTolerance (tolerance : V1) : FR :=
  nanZeroR (match tolerance with
    | .base (.floatV t) => goAbsR t.toFR
    | .base (.intV n) => goAbsR (.fin (n : ℝ))
    | .base (.complexV re im) => hypotR re.toFR im.toFR
    | _ => .fin 0)

/-- The NaN check never returns NaN. -/
theorem nanZeroR_ne_nan (r : FR) : nanZeroR r ≠ FR.nan := by
  cases r <;> simp [nanZeroR]

/-- C2 counterexample: an infinite tolerance input is not collapsed to
zero — `math.Abs` maps `-Inf` to `+Inf`, and the final check zeroes only
NaN, so the coerced tolerance is `+Inf`, not `0`. -/
theorem c2_counterexample :
    validateTolerance (.base (.floatV (.inf true))) = FR.inf false ∧
    FR.inf false ≠ FR.fin 0 :=
  ⟨rfl, fun h => nomatch h⟩

/-- C2 amended: the coerced tolerance is never NaN and never negative —
a finite float tolerance maps to its absolute value, an integer one to
its absolute value, a finite complex one to its modulus; a NaN tolerance
and every non-numeric tolerance are coerced to `0`; but an infinite
tolerance is returned as `+Inf`, not collapsed to `0`. -/
theorem c2_amended (t : V1) :
    (validateTolerance t ≠ FR.nan) ∧
    (∀ x : ℝ, validateTolerance t = FR.fin x → 0 ≤ x) ∧
    (∀ s, validateTolerance t = FR.inf s → s = false) ∧
    (∀ sgn m, t = .base (.floatV (.fin sgn m)) →
      validateTolerance t = FR.fin |(m : ℝ)|) ∧
    (∀ n : ℤ, t = .base (.intV n) → validateTolerance t = FR.fin |(n : ℝ)|) ∧
    (∀ s1 m1 s2 m2, t = .base (.complexV (.fin s1 m1) (.fin s2 m2)) →
      validateTolerance t = FR.fin (Real.sqrt ((m1 : ℝ) ^ 2 + (m2 : ℝ) ^ 2))) ∧
    (∀ sgn, t = .base (.floatV (.nan sgn)) → validateTolerance t = FR.fin 0) ∧
    ((∀ f, t ≠ .base (.floatV f)) → (∀ n, t ≠ .base (.intV n)) →
      (∀ re im, t ≠ .base (.complexV re im)) → validateTolerance t = FR.fin 0) ∧
    (∀ sgn, t = .base (.floatV (.inf sgn)) → validateTolerance t = FR.inf false) := by
  have hchar : (∃ x : ℝ, 0 ≤ x ∧ validateTolerance t = FR.fin x) ∨
      validateTolerance t = FR.inf false := by
    cases t with
    | funcV s b => exact .inl ⟨0, le_refl 0, rfl⟩
    | base v =>
      cases v with
      | invalid => exact .inl ⟨0, le_refl 0, rfl⟩
      | boolV b => exact .inl ⟨0, le_refl 0, rfl⟩
      | intV n => exact .inl ⟨|(n : ℝ)|, abs_nonneg _, rfl⟩
      | floatV f =>
        cases f with
        | nan sgn => exact .inl ⟨0, le_refl 0, rfl⟩
        | inf sgn => exact .inr rfl
        | fin sgn m =>
          exact .inl ⟨|if sgn then -(m : ℝ) else (m : ℝ)|, abs_nonneg _, rfl⟩
      | complexV re im =>
        cases re with
        | nan s1 =>
          cases im with
          | nan s2 => exact .inl ⟨0, le_refl 0, rfl⟩
          | inf s2 => exact .inr rfl
          | fin s2 m2 => exact .inl ⟨0, le_refl 0, rfl⟩
        | inf s1 =>
          cases im with
          | nan s2 => exact .inr rfl
          | inf s2 => exact .inr rfl
          | fin s2 m2 => exact .inr rfl
        | fin s1 m1 =>
          cases im with
          | nan s2 => exact .inl ⟨0, le_refl 0, rfl⟩
          | inf s2 => exact .inr rfl
          | fin s2 m2 =>
            exact .inl ⟨Real.sqrt ((if s1 then -(m1 : ℝ) else (m1 : ℝ)) ^ 2 +
              (if s2 then -(m2 : ℝ) else (m2 : ℝ)) ^ 2), Real.sqrt_nonneg _, rfl⟩
      | strV s => exact .inl ⟨0, le_refl 0, rfl⟩
      | sliceV l => exact .inl ⟨0, le_refl 0, rfl⟩
      | arrV l => exact .inl ⟨0, le_refl 0, rfl⟩
      | mapV ps => exact .inl ⟨0, le_refl 0, rfl⟩
      | structV fs => exact .inl ⟨0, le_refl 0, rfl⟩
      | ptrV p => exact .inl ⟨0, le_refl 0, rfl⟩
  refine ⟨nanZeroR_ne_nan _, ?_, ?_, ?_, ?_, ?_, ?_, ?_, ?_⟩
  · intro x h
    rcases hchar with ⟨y, hy, he⟩ | he
    · rw [he] at h
      injection h with h
      exact h ▸ hy
    · rw [he] at h
      exact FR.noConfusion h
  · intro s h
    rcases hchar with ⟨y, hy, he⟩ | he
    · rw [he] at h
      exact FR.noConfusion h
    · rw [he] at h
      injection h with h
      exact h.symm
  · intro sgn m h
    subst h
    cases sgn <;> simp [validateTolerance, goAbsR, F.toFR, nanZeroR, abs_neg]
  · intro n h
    subst h
    rfl
  · intro s1 m1 s2 m2 h
    subst h
    cases s1 <;> cases s2 <;>
      simp [validateTolerance, hypotR, F.toFR, nanZeroR, neg_sq]
  · intro sgn h
    subst h
    rfl
  · intro hf hn hc
    cases t with
    | funcV s b => rfl
    | base v =>
      cases v with
      | invalid => rfl
      | boolV b => rfl
      | intV n => exact absurd rfl (hn n)
      | floatV f => exact absurd rfl (hf f)
      | complexV re im => exact absurd rfl (hc re im)
      | strV s => rfl
      | sliceV l => rfl
      | arrV l => rfl
      | mapV ps => rfl
      | structV fs => rfl
      | ptrV p => rfl
  · intro sgn h
    subst h
    rfl

/-- C2 amended at a NaN tolerance, a boolean tolerance and a negative
integer tolerance. -/
theorem c2_amended_witness :
    validateTolerance (.base (.floatV (.nan false))) = FR.fin 0 ∧
    validateTolerance (.base (.boolV true)) = FR.fin 0 ∧
    validateTolerance (.base (.intV (-7))) = FR.fin |((-7 : ℤ) : ℝ)| :=
  ⟨(c2_amended (.base (.floatV (.nan false)))).2.2.2.2.2.2.1 false rfl,
   (c2_amended (.base (.boolV true))).2.2.2.2.2.2.2.1
     (fun f h => by simp at h) (fun n h => by simp at h)
     (fun re im h => by simp at h),
   (c2_amended (.base (.intV (-7)))).2.2.2.2.1 (-7) rfl⟩
